import Mathlib

/-!
Verification of the drum2midi audio-to-MIDI engine.

Shallow embedding of the signal-processing and encoding chain of the
repository (src/engine/{tempo,onset,midi,separation,pipeline}.py) over exact
rationals.  Machine floats are modelled by `ℚ`; Python `int()` truncation and
`np.round` half-to-even rounding are modelled explicitly.  External numeric
kernels (FFT magnitudes, IIR filters) that live in numpy/scipy rather than in
the repository are abstracted as oracle parameters; the control flow around
them is translated faithfully from the source.
-/

namespace Drum2Midi

/-- Python `int()` applied to a real quantity: truncation toward zero. -/
def py_int (x : ℚ) : ℤ := if 0 ≤ x then ⌊x⌋ else ⌈x⌉

/-- `np.round` (also Python 3 `round`): round to nearest, ties to even. -/
def np_round (x : ℚ) : ℤ :=
  let f := ⌊x⌋
  let r := x - (f : ℚ)
  if r < 1/2 then f
  else if 1/2 < r then f + 1
  else if 2 ∣ f then f else f + 1

/-- `np.clip` on rationals. -/
def np_clip_q (x lo hi : ℚ) : ℚ := max lo (min x hi)

/-- `np.clip` on integers. -/
def np_clip_i (x lo hi : ℤ) : ℤ := max lo (min x hi)

/-- The grid point that `quantize_onsets` maps the time `t` to:
`np.round(t / grid_spacing) * grid_spacing`. -/
def nearestGrid (g t : ℚ) : ℚ := (np_round (t / g) : ℚ) * g

/-- `quantize_onsets` from src/engine/tempo.py (lines 71-101): quantize onset
times to the tempo grid, blending by `strength`. -/
def quantize_onsets (onset_times : List ℚ) (bpm : ℚ)
    (grid_division : ℤ := 16) (strength : ℚ := 1) : List ℚ :=
  if onset_times = [] then onset_times
  else
    let beat_duration := 60 / bpm
    let grid_spacing := beat_duration / ((grid_division : ℚ) / 4)
    -- quantized = np.round(onset_times / grid_spacing) * grid_spacing
    let quantized := onset_times.map (fun t => nearestGrid grid_spacing t)
    -- result = onset_times + strength * (quantized - onset_times)
    List.zipWith (fun t q => t + strength * (q - t)) onset_times quantized

/-- `strength_to_velocity` from src/engine/midi.py (lines 23-36).  Note the
source computes `int(min_vel + strength * (max_vel - min_vel))`: Python `int()`
truncation, not rounding. -/
def strength_to_velocity (strength : ℚ) (min_vel : ℤ := 1) (max_vel : ℤ := 127) : ℤ :=
  let s := np_clip_q strength 0 1
  let velocity := py_int ((min_vel : ℚ) + s * ((max_vel : ℚ) - (min_vel : ℚ)))
  np_clip_i velocity min_vel max_vel

/-- Modelled from the spec (§4.7): `velocity = round(1 + strength * 126)`,
clamped to [1,127].  This is the claimed behaviour, to be compared with the
source's `strength_to_velocity`, which truncates instead of rounding. -/
def strength_to_velocity_claimed (strength : ℚ) : ℤ :=
  np_clip_i (np_round (1 + strength * 126)) 1 127

/-- `GM_DRUM_MAP` from src/engine/midi.py (lines 9-20). -/
def GM_DRUM_MAP : List (String × ℤ) :=
  [("kick", 36), ("snare", 38), ("hihat_closed", 42), ("hihat_open", 46),
   ("hihat", 42), ("tom_low", 45), ("tom_mid", 47), ("tom_high", 50),
   ("crash", 49), ("ride", 51)]

/-- Membership test `drum_name in GM_DRUM_MAP` / lookup `GM_DRUM_MAP[drum_name]`. -/
def gmLookup (name : String) : Option ℤ :=
  (GM_DRUM_MAP.find? (fun p => p.1 == name)).map (·.2)

/-- The pure part of `create_drum_midi` from src/engine/midi.py (lines
110-140): the note list handed to `generate_midi_file` and the returned total
note count.  Writing the MIDI file itself is I/O and is not modelled. -/
def create_drum_midi_notes (drum_onsets : List (String × List ℚ × List ℚ)) :
    List (ℤ × List ℚ × List ℤ) × ℕ :=
  drum_onsets.foldl
    (fun acc entry =>
      match gmLookup entry.1 with
      | none => acc
      | some note_num =>
        (acc.1 ++ [(note_num, entry.2.1, entry.2.2.map (fun s => strength_to_velocity s))],
         acc.2 + entry.2.1.length))
    ([], 0)

/-! ### Helper lemmas about rounding -/

theorem np_round_dist_le_half (x : ℚ) : |x - (np_round x : ℚ)| ≤ 1/2 := by
  unfold np_round
  have hfl : (⌊x⌋ : ℚ) ≤ x := Int.floor_le x
  have hfu : x < (⌊x⌋ : ℚ) + 1 := Int.lt_floor_add_one x
  by_cases h1 : x - (⌊x⌋ : ℚ) < 1/2
  · simp only [h1, if_true]
    rw [abs_of_nonneg (by linarith)]
    linarith
  · simp only [h1, if_false]
    by_cases h2 : (1:ℚ)/2 < x - (⌊x⌋ : ℚ)
    · simp only [h2, if_true]
      push_cast
      rw [abs_of_nonpos (by linarith)]
      linarith
    · have hx : x - (⌊x⌋ : ℚ) = 1/2 := le_antisymm (not_lt.mp h2) (not_lt.mp h1)
      by_cases h3 : 2 ∣ ⌊x⌋
      · simp only [h2, if_false, h3, if_true]
        rw [abs_of_nonneg (by linarith)]
        linarith
      · simp only [h2, if_false, h3, if_false]
        push_cast
        rw [abs_of_nonpos (by linarith)]
        linarith

theorem np_round_nearest_int (x : ℚ) (k : ℤ) :
    |x - (np_round x : ℚ)| ≤ |x - (k : ℚ)| := by
  by_cases hk : k = np_round x
  · subst hk; exact le_refl _
  · have hhalf := np_round_dist_le_half x
    have hint : (1 : ℚ) ≤ |(np_round x : ℚ) - (k : ℚ)| := by
      have h2 : (1 : ℤ) ≤ |np_round x - k| :=
        Int.one_le_abs (sub_ne_zero.mpr (Ne.symm hk))
      have hcast : ((np_round x : ℚ) - (k : ℚ)) = ((np_round x - k : ℤ) : ℚ) := by
        push_cast; ring
      rw [hcast, ← Int.cast_abs]
      exact_mod_cast h2
    have htri : |(np_round x : ℚ) - (k : ℚ)| ≤ |(np_round x : ℚ) - x| + |x - (k : ℚ)| :=
      abs_sub_le _ _ _
    have h3 : |(np_round x : ℚ) - x| = |x - (np_round x : ℚ)| := abs_sub_comm _ _
    linarith

/-- The grid point chosen by the quantizer is (one of) the nearest grid
multiples: no integer multiple of `g` is strictly closer to `t`. -/
theorem nearestGrid_is_nearest (g t : ℚ) (hg : 0 < g) (k : ℤ) :
    |t - nearestGrid g t| ≤ |t - (k : ℚ) * g| := by
  unfold nearestGrid
  have h := np_round_nearest_int (t / g) k
  have hgne : g ≠ 0 := ne_of_gt hg
  have e1 : t - (np_round (t/g) : ℚ) * g = (t/g - (np_round (t/g) : ℚ)) * g := by
    rw [sub_mul, div_mul_cancel₀ t hgne]
  have e2 : t - (k : ℚ) * g = (t/g - (k : ℚ)) * g := by
    rw [sub_mul, div_mul_cancel₀ t hgne]
  rw [e1, e2, abs_mul, abs_mul, abs_of_pos hg]
  exact mul_le_mul_of_nonneg_right h (le_of_lt hg)

theorem zipWith_map_self {α β : Type} (f : α → α → β) (h : α → α) (l : List α) :
    List.zipWith f l (l.map h) = l.map (fun t => f t (h t)) := by
  induction l with
  | nil => rfl
  | cons a t ih => simp [List.zipWith, ih]

/-! ### Claim C1: quantizer blend/identity/snap -/

/-- The property claimed of the quantizer, at given arguments.  `g` is the
grid spacing `(60/bpm) / (grid_division/4)`. -/
def QuantizeBlendProp (ot : List ℚ) (bpm : ℚ) (gd : ℤ) (s : ℚ) : Prop :=
  let g := (60 / bpm) / ((gd : ℚ) / 4)
  (quantize_onsets ot bpm gd s = ot.map (fun t => t + s * (nearestGrid g t - t)))
  ∧ (∀ t : ℚ, ∀ k : ℤ, |t - nearestGrid g t| ≤ |t - (k : ℚ) * g|)
  ∧ (quantize_onsets ot bpm gd 0 = ot)
  ∧ (∀ y ∈ quantize_onsets ot bpm gd 1, ∃ k : ℤ, y = (k : ℚ) * g)

/-- Claim C1: for every onset list, positive bpm and positive grid division,
`quantize_onsets` blends each time toward its nearest grid multiple as
`result = original + strength * (nearest_grid - original)` with grid spacing
`(60/bpm)/(grid_division/4)`; strength 0 returns the input exactly, and
strength 1 lands exactly on integer multiples of the grid spacing. -/
theorem quantize_onsets_blend_spec (ot : List ℚ) (bpm : ℚ) (gd : ℤ) (s : ℚ)
    (hb : 0 < bpm) (hg : 0 < gd) : QuantizeBlendProp ot bpm gd s := by
  have hgq : (0 : ℚ) < (60 / bpm) / ((gd : ℚ) / 4) := by
    apply div_pos (by positivity)
    have : (0 : ℚ) < (gd : ℚ) := by exact_mod_cast hg
    positivity
  unfold QuantizeBlendProp
  set g := (60 / bpm) / ((gd : ℚ) / 4) with hgdef
  refine ⟨?_, fun t k => nearestGrid_is_nearest g t hgq k, ?_, ?_⟩
  · unfold quantize_onsets
    by_cases h : ot = []
    · subst h; rfl
    · simp only [h, if_false]
      exact zipWith_map_self _ _ _
  · unfold quantize_onsets
    by_cases h : ot = []
    · simp [h]
    · simp only [h, if_false]
      rw [zipWith_map_self]
      conv_rhs => rw [(List.map_id ot).symm]
      apply List.map_congr_left
      intro t _
      simp
  · intro y hy
    unfold quantize_onsets at hy
    by_cases h : ot = []
    · subst h; simp at hy
    · simp only [h, if_false] at hy
      rw [zipWith_map_self] at hy
      simp only [List.mem_map] at hy
      obtain ⟨t, _, ht⟩ := hy
      refine ⟨np_round (t / g), ?_⟩
      rw [← ht]
      unfold nearestGrid
      ring

/-- Witness for C1 at concrete inputs (bpm 120, sixteenth grid, strength 1/2). -/
theorem quantize_onsets_blend_spec_witness :
    QuantizeBlendProp [1/3, 7/8] 120 16 (1/2) :=
  quantize_onsets_blend_spec [1/3, 7/8] 120 16 (1/2) (by norm_num) (by norm_num)

/-! ### Claim C2: strength-to-velocity mapping -/

/-- Counterexample to claim C2 as stated: at strength 1/64 (= 0.015625, an
exact binary float), the source returns `int(1 + 126/64) = 2` while the
claimed `round(1 + 126/64) = 3`. -/
theorem strength_to_velocity_not_round :
    strength_to_velocity (1/64) = 2 ∧ strength_to_velocity_claimed (1/64) = 3 ∧
      strength_to_velocity (1/64) ≠ strength_to_velocity_claimed (1/64) := by
  have h1 : strength_to_velocity (1/64) = 2 := by
    norm_num [strength_to_velocity, np_clip_q, py_int, np_clip_i]
  have h2 : strength_to_velocity_claimed (1/64) = 3 := by
    norm_num [strength_to_velocity_claimed, np_round, np_clip_i]
  exact ⟨h1, h2, by rw [h1, h2]; norm_num⟩

/-- Claim C2 amended: for strength in [0,1] the function returns
`int(1 + strength * 126)` (truncation toward zero, i.e. floor) clamped to
[1,127]; the endpoints map to 1 and 127, and the map is monotonically
non-decreasing on [0,1]. -/
theorem strength_to_velocity_floor_spec :
    (∀ s : ℚ, 0 ≤ s → s ≤ 1 →
        strength_to_velocity s = np_clip_i ⌊(1 : ℚ) + s * 126⌋ 1 127)
    ∧ strength_to_velocity 0 = 1
    ∧ strength_to_velocity 1 = 127
    ∧ (∀ s t : ℚ, 0 ≤ s → s ≤ t → t ≤ 1 →
        strength_to_velocity s ≤ strength_to_velocity t) := by
  have key : ∀ s : ℚ, 0 ≤ s → s ≤ 1 →
      strength_to_velocity s = np_clip_i ⌊(1 : ℚ) + s * 126⌋ 1 127 := by
    intro s h0 h1
    unfold strength_to_velocity np_clip_q py_int
    have hs : max 0 (min s 1) = s := by
      rw [min_eq_left h1, max_eq_right h0]
    rw [hs]
    have hnn : (0 : ℚ) ≤ (1 : ℤ) + s * (((127 : ℤ) : ℚ) - ((1 : ℤ) : ℚ)) := by
      push_cast; nlinarith
    simp only [hnn, if_true]
    norm_num
  have e0 : strength_to_velocity 0 = 1 := by
    norm_num [strength_to_velocity, np_clip_q, py_int, np_clip_i]
  have e1 : strength_to_velocity 1 = 127 := by
    norm_num [strength_to_velocity, np_clip_q, py_int, np_clip_i]
  refine ⟨key, e0, e1, ?_⟩
  intro s t h0 hst h1
  rw [key s h0 (le_trans hst h1), key t (le_trans h0 hst) h1]
  unfold np_clip_i
  have hf : ⌊(1 : ℚ) + s * 126⌋ ≤ ⌊(1 : ℚ) + t * 126⌋ := by
    apply Int.floor_le_floor
    nlinarith
  exact max_le_max (le_refl _) (min_le_min hf (le_refl _))

/-! ### Claim C10: MIDI total note count -/

/-- Claim C10: the note-encoding step returns a total count equal to the sum
of onset-time counts over exactly the stems whose names appear in the GM drum
map; unrecognized stems contribute nothing, so the total is at most the sum
over all stems. -/
theorem sum_map_filter_le {α : Type} (l : List α) (f : α → ℕ) (p : α → Bool) :
    ((l.filter p).map f).sum ≤ (l.map f).sum := by
  induction l with
  | nil => simp
  | cons a t ih =>
    rw [List.filter_cons]
    by_cases h : p a = true
    · simp only [h, if_true, List.map_cons, List.sum_cons]
      exact Nat.add_le_add_left ih _
    · simp only [h, if_false, List.map_cons, List.sum_cons]
      exact le_trans ih (Nat.le_add_left _ _)

theorem create_drum_midi_count_aux (l : List (String × List ℚ × List ℚ))
    (acc : List (ℤ × List ℚ × List ℤ) × ℕ) :
    (l.foldl (fun acc entry =>
      match gmLookup entry.1 with
      | none => acc
      | some note_num =>
        (acc.1 ++ [(note_num, entry.2.1, entry.2.2.map (fun s => strength_to_velocity s))],
         acc.2 + entry.2.1.length)) acc).2 =
      acc.2 + ((l.filter (fun e => (gmLookup e.1).isSome)).map (fun e => e.2.1.length)).sum := by
  induction l generalizing acc with
  | nil => simp
  | cons a t ih =>
    cases h : gmLookup a.1 with
    | none =>
      have hp : ((gmLookup a.1).isSome) = false := by rw [h]; rfl
      simp only [List.foldl_cons, h]
      rw [ih]
      rw [List.filter_cons]
      simp only [hp, Bool.false_eq_true, if_false]
    | some v =>
      have hp : ((gmLookup a.1).isSome) = true := by rw [h]; rfl
      simp only [List.foldl_cons, h]
      rw [ih]
      rw [List.filter_cons]
      simp only [hp, if_true, List.map_cons, List.sum_cons]
      omega

/-- Claim C10: the note-encoding step returns a total count equal to the sum
of onset-time counts over exactly the stems whose names appear in the GM drum
map; unrecognized stems contribute nothing, so the total is at most the sum
over all stems. -/
theorem create_drum_midi_total_notes (drum_onsets : List (String × List ℚ × List ℚ)) :
    (create_drum_midi_notes drum_onsets).2 =
      ((drum_onsets.filter (fun e => (gmLookup e.1).isSome)).map
        (fun e => e.2.1.length)).sum
    ∧ (create_drum_midi_notes drum_onsets).2 ≤
      (drum_onsets.map (fun e => e.2.1.length)).sum := by
  have hmain : (create_drum_midi_notes drum_onsets).2 =
      ((drum_onsets.filter (fun e => (gmLookup e.1).isSome)).map
        (fun e => e.2.1.length)).sum := by
    unfold create_drum_midi_notes
    rw [create_drum_midi_count_aux]
    exact Nat.zero_add _
  exact ⟨hmain, hmain ▸ sum_map_filter_le drum_onsets _ _⟩

/-! ### Onset envelope (src/engine/onset.py) -/

/-- Errors a run of the engine can surface.  The source defines no custom
exception classes; `valueError` stands for the `ValueError`s raised by
numpy/scipy (numpy's `AxisError` is a `ValueError` subclass).
`invalidInputError` and `invalidConfigError` are modelled from the spec (§7),
which names error kinds `InvalidInputError` and `InvalidConfigError`; no such
classes exist anywhere in the repository and the code never raises them. -/
inductive PyErr
  | valueError
  | invalidInputError
  | invalidConfigError
deriving DecidableEq

/-- `np.max` of a nonempty array (matching `List.max?`'s fold); the empty
case is unreachable in the embedding because the caller errors first. -/
def np_max_val : List ℚ → ℚ
  | [] => 0
  | a :: t => t.foldl max a

/-- The frame/time bookkeeping of `scipy.signal.spectrogram(x, fs=sr,
nperseg=2048, noverlap=2048-hop, mode="magnitude")` as called by
`compute_onset_envelope`.  scipy caps `nperseg` at the input length (with a
warning) and then raises `ValueError` when `noverlap >= nperseg`; on empty
input numpy raises as well.  The magnitude columns themselves are an FFT
computed inside scipy, outside this repository; they are abstracted as the
oracle `mag : frame index → magnitude column`. -/
def spectrogram (mag : ℕ → List ℚ) (n : ℕ) (fs : ℚ) (nperseg noverlap : ℕ) :
    Except PyErr (List (List ℚ) × List ℚ) :=
  if n = 0 then .error .valueError
  else if noverlap ≥ min nperseg n then .error .valueError
  else
    .ok ((List.range ((n - noverlap) / (min nperseg n - noverlap))).map mag,
      (List.range ((n - noverlap) / (min nperseg n - noverlap))).map
        (fun i => (((min nperseg n : ℕ) : ℚ) / 2
          + (i : ℚ) * (((min nperseg n - noverlap : ℕ) : ℚ))) / fs))

/-- Half-wave-rectified spectral flux between consecutive magnitude columns:
`np.sum(np.maximum(0, diff), axis=0)` for one time step. -/
def spectralFlux (prev cur : List ℚ) : ℚ :=
  (List.zipWith (fun a b => max 0 (b - a)) prev cur).sum

/-- `compute_onset_envelope` from src/engine/onset.py (lines 6-48).
`onset_env.max()` on an empty numpy array raises `ValueError`, which is how
the source fails on signals shorter than `n_fft + hop` samples (the
spectrogram then has at most one frame and the diff is empty). -/
def compute_onset_envelope (mag : ℕ → List ℚ) (audio : List ℚ) (sample_rate : ℚ)
    (hop : ℕ := 512) : Except PyErr (List ℚ × List ℚ) :=
  match spectrogram mag audio.length sample_rate 2048 (2048 - hop) with
  | .error e => .error e
  | .ok (cols, times) =>
    let onset_env := List.zipWith spectralFlux cols (cols.drop 1)
    if onset_env = [] then .error .valueError
    else
      let m := np_max_val onset_env
      let env := if 0 < m then onset_env.map (· / m) else onset_env
      .ok (env, times.drop 1)

/-! ### Claim C3: behaviour on too-short signals -/

/-- For inputs shorter than `n_fft + hop = 2560` samples the modelled
spectrogram either raises, or produces a single frame. -/
theorem spectrogram_short_cases (mag : ℕ → List ℚ) (n : ℕ) (fs : ℚ)
    (h : n < 2560) :
    spectrogram mag n fs 2048 1536 = .error .valueError
    ∨ ∃ ts, spectrogram mag n fs 2048 1536 = .ok ((List.range 1).map mag, ts) := by
  unfold spectrogram
  by_cases h0 : n = 0
  · left; rw [if_pos h0]
  · rw [if_neg h0]
    by_cases h1 : 1536 ≥ min 2048 n
    · left; rw [if_pos h1]
    · have hframes : (n - 1536) / (min 2048 n - 1536) = 1 := by
        rcases le_or_lt n 2047 with hc | hc
        · have hmin : min 2048 n = n := by omega
          rw [hmin]
          exact Nat.div_self (by omega)
        · have hmin : min 2048 n = 2048 := by omega
          rw [hmin]
          omega
      rw [if_neg h1, hframes]
      exact Or.inr ⟨_, rfl⟩

theorem compute_onset_envelope_short_aux (mag : ℕ → List ℚ)
    (audio : List ℚ) (sr : ℚ) (h : audio.length < 2560) :
    compute_onset_envelope mag audio sr 512 = .error .valueError := by
  unfold compute_onset_envelope
  have hsub : (2048 - 512 : ℕ) = 1536 := rfl
  rw [hsub]
  rcases spectrogram_short_cases mag audio.length sr h with hsp | ⟨ts, hsp⟩
  · rw [hsp]
  · rw [hsp]
    have h1 : List.range 1 = [0] := rfl
    rw [h1]
    simp

/-- Claim C3 amended: for every signal shorter than `n_fft + hop = 2560`
samples (in particular every signal shorter than one 2048-sample window) the
envelope computation fails — with the library `ValueError`, for every
magnitude oracle. -/
theorem compute_onset_envelope_short_valueError (mag : ℕ → List ℚ)
    (audio : List ℚ) (sr : ℚ) (h : audio.length < 2560) :
    compute_onset_envelope mag audio sr 512 = .error .valueError :=
  compute_onset_envelope_short_aux mag audio sr h

/-- Counterexample to claim C3 as stated: on a 1000-sample signal (shorter
than one 2048-sample analysis window) the envelope computation does fail, but
with the library's `ValueError`, not with the spec's `InvalidInputError`
(which the code never defines). -/
theorem compute_onset_envelope_short_not_invalidInput :
    compute_onset_envelope (fun _ => []) (List.replicate 1000 (0 : ℚ)) 44100 512
      = .error .valueError
    ∧ compute_onset_envelope (fun _ => []) (List.replicate 1000 (0 : ℚ)) 44100 512
      ≠ .error .invalidInputError := by
  have h : compute_onset_envelope (fun _ => []) (List.replicate 1000 (0 : ℚ)) 44100 512
      = .error .valueError :=
    compute_onset_envelope_short_aux (fun _ => []) (List.replicate 1000 (0 : ℚ))
      44100 (by simp only [List.length_replicate]; norm_num)
  exact ⟨h, by rw [h]; intro hc; cases hc⟩

/-- Witness for the amended C3 at length 1000. -/
theorem compute_onset_envelope_short_valueError_witness :
    compute_onset_envelope (fun _ => [1, 2]) (List.replicate 1000 (0 : ℚ)) 48000 512
      = .error .valueError :=
  compute_onset_envelope_short_valueError (fun _ => [1, 2])
    (List.replicate 1000 (0 : ℚ)) 48000 (by simp only [List.length_replicate]; norm_num)

/-! ### Claim C8: envelope normalization -/

theorem exists_of_mem_zipWith {α β γ : Type} {f : α → β → γ} :
    ∀ {l1 : List α} {l2 : List β} {c : γ}, c ∈ List.zipWith f l1 l2 → ∃ a b, c = f a b
  | [], _, _, h => by simp at h
  | _ :: _, [], _, h => by simp at h
  | a :: t1, b :: t2, c, h => by
    rw [List.zipWith_cons_cons] at h
    rcases List.mem_cons.mp h with h | h
    · exact ⟨a, b, h⟩
    · exact exists_of_mem_zipWith h

theorem spectralFlux_nonneg (prev cur : List ℚ) : 0 ≤ spectralFlux prev cur := by
  apply List.sum_nonneg
  intro x hx
  obtain ⟨a, b, rfl⟩ := exists_of_mem_zipWith hx
  exact le_max_left 0 _

theorem foldl_max_spec (t : List ℚ) : ∀ a : ℚ,
    t.foldl max a ∈ a :: t ∧ ∀ x ∈ a :: t, x ≤ t.foldl max a := by
  induction t with
  | nil => intro a; simp
  | cons b t ih =>
    intro a
    have hstep : (b :: t).foldl max a = t.foldl max (max a b) := rfl
    rw [hstep]
    obtain ⟨hmem, hub⟩ := ih (max a b)
    constructor
    · rcases List.mem_cons.mp hmem with h | h
      · rcases max_choice a b with hc | hc
        · rw [h, hc]; exact List.mem_cons_self _ _
        · rw [h, hc]; exact List.mem_cons_of_mem _ (List.mem_cons_self _ _)
      · exact List.mem_cons_of_mem _ (List.mem_cons_of_mem _ h)
    · intro x hx
      rcases List.mem_cons.mp hx with h | h
      · exact le_trans (h ▸ le_max_left a b) (hub _ (List.mem_cons_self _ _))
      · rcases List.mem_cons.mp h with h | h
        · exact le_trans (h ▸ le_max_right a b) (hub _ (List.mem_cons_self _ _))
        · exact hub _ (List.mem_cons_of_mem _ h)

theorem np_max_val_spec (a : ℚ) (t : List ℚ) :
    np_max_val (a :: t) ∈ a :: t ∧ ∀ x ∈ a :: t, x ≤ np_max_val (a :: t) :=
  foldl_max_spec t a

theorem foldl_max_div (t : List ℚ) (m : ℚ) (hm : 0 < m) : ∀ a : ℚ,
    (t.map (· / m)).foldl max (a / m) = (t.foldl max a) / m := by
  induction t with
  | nil => intro a; rfl
  | cons b t ih =>
    intro a
    simp only [List.map_cons, List.foldl_cons]
    rw [max_div_div_right (le_of_lt hm) a b]
    exact ih (max a b)

theorem np_max_val_map_div (l : List ℚ) (m : ℚ) (hm : 0 < m) :
    np_max_val (l.map (· / m)) = np_max_val l / m := by
  cases l with
  | nil => simp [np_max_val]
  | cons a t =>
    show (t.map (· / m)).foldl max (a / m) = (t.foldl max a) / m
    exact foldl_max_div t m hm a

/-- Claim C8: whenever the envelope computation succeeds, the returned
envelope either has maximum exactly 1, or (all frames silent, zero flux
everywhere) is all zeros. -/
theorem compute_onset_envelope_normalized (mag : ℕ → List ℚ) (audio : List ℚ)
    (sr : ℚ) (env times' : List ℚ)
    (h : compute_onset_envelope mag audio sr 512 = .ok (env, times')) :
    np_max_val env = 1 ∨ ∀ x ∈ env, x = 0 := by
  unfold compute_onset_envelope at h
  cases hs : spectrogram mag audio.length sr 2048 (2048 - 512) with
  | error e => rw [hs] at h; cases h
  | ok v =>
    obtain ⟨cols, times⟩ := v
    rw [hs] at h
    simp only at h
    set onset_env := List.zipWith spectralFlux cols (cols.drop 1) with henv
    by_cases hne : onset_env = []
    · rw [if_pos hne] at h; cases h
    · rw [if_neg hne] at h
      have hnn : ∀ x ∈ onset_env, 0 ≤ x := by
        intro x hx
        obtain ⟨a, b, rfl⟩ := exists_of_mem_zipWith (henv ▸ hx)
        exact spectralFlux_nonneg a b
      by_cases hpos : 0 < np_max_val onset_env
      · left
        rw [if_pos hpos] at h
        injection h with hpair
        injection hpair with h1 h2
        rw [← h1, np_max_val_map_div _ _ hpos, div_self (ne_of_gt hpos)]
      · right
        rw [if_neg hpos] at h
        injection h with hpair
        injection hpair with h1 h2
        intro x hx
        rw [← h1] at hx
        obtain ⟨a, t, hat⟩ := List.exists_cons_of_ne_nil hne
        have hub := (np_max_val_spec a t).2 x (hat ▸ hx)
        rw [← hat] at hub
        have h0 := hnn x hx
        have hle : np_max_val onset_env ≤ 0 := not_lt.mp hpos
        linarith

/-- Witness for C8: a 2560-sample signal with empty magnitude columns yields
the all-zero envelope `[0]`. -/
theorem compute_onset_envelope_normalized_witness :
    np_max_val [(0 : ℚ)] = 1 ∨ ∀ x ∈ [(0 : ℚ)], x = 0 := by
  have h : compute_onset_envelope (fun _ => []) (List.replicate 2560 (0 : ℚ)) 1 512
      = .ok ([0], [(2048 / 2 + 1 * 512) / 1]) := by
    unfold compute_onset_envelope spectrogram
    norm_num [List.length_replicate, List.range_succ, spectralFlux, np_max_val]
  exact compute_onset_envelope_normalized (fun _ => []) (List.replicate 2560 (0 : ℚ))
    1 [0] [(2048 / 2 + 1 * 512) / 1] h

/-! ### Tempo estimation (src/engine/tempo.py, lines 8-68) -/

/-- `np.mean`. -/
def listMean (l : List ℚ) : ℚ := l.sum / (l.length : ℚ)

/-- `envelope - np.mean(envelope)`. -/
def centeredEnvelope (envelope : List ℚ) : List ℚ :=
  envelope.map (fun x => x - listMean envelope)

/-- One non-negative lag of `np.correlate(e, e, mode="full")[len-1:]`:
`ac[k] = Σ_i e[i] * e[i+k]`. -/
def autocorr (e : List ℚ) (k : ℕ) : ℚ := (List.zipWith (· * ·) e (e.drop k)).sum

/-- All non-negative lags of the full autocorrelation (length = `e.length`). -/
def autocorrList (e : List ℚ) : List ℚ := (List.range e.length).map (autocorr e)

def np_argmax_aux : List ℚ → ℕ → ℕ → ℚ → ℕ
  | [], _, bi, _ => bi
  | x :: t, i, bi, bv =>
    if bv < x then np_argmax_aux t (i + 1) i x else np_argmax_aux t (i + 1) bi bv

/-- `np.argmax`: index of the first occurrence of the maximum (0 on empty). -/
def np_argmax : List ℚ → ℕ
  | [] => 0
  | x :: t => np_argmax_aux t 1 0 x

/-- The autocorrelation list computed by `estimate_bpm`. -/
def tempo_ac (envelope : List ℚ) : List ℚ := autocorrList (centeredEnvelope envelope)

/-- Frame spacing `dt`: `times[1] - times[0]` when available, else the default
hop `512 / sample_rate`. -/
def tempo_dt (times : List ℚ) (sample_rate : ℚ) : ℚ :=
  if 1 < times.length then times.getD 1 0 - times.getD 0 0 else 512 / sample_rate

/-- `min_lag = max(1, int(60.0 / max_bpm / dt))`. -/
def tempo_min_lag (max_bpm dt : ℚ) : ℤ := max 1 (py_int (60 / max_bpm / dt))

/-- `max_lag = min(len(autocorr) - 1, int(60.0 / min_bpm / dt))`. -/
def tempo_max_lag (acLen : ℕ) (min_bpm dt : ℚ) : ℤ :=
  min ((acLen : ℤ) - 1) (py_int (60 / min_bpm / dt))

/-- `search_region = autocorr[min_lag:max_lag]` (reached only when
`0 ≤ min_lag < max_lag ≤ len - 1`, where Python slicing and `toNat`
indexing agree). -/
def tempo_region (envelope times : List ℚ) (sr min_bpm max_bpm : ℚ) : List ℚ :=
  ((tempo_ac envelope).take
      (tempo_max_lag (tempo_ac envelope).length min_bpm (tempo_dt times sr)).toNat).drop
    (tempo_min_lag max_bpm (tempo_dt times sr)).toNat

/-- `peak_idx = np.argmax(search_region) + min_lag`. -/
def tempo_peak_idx (envelope times : List ℚ) (sr min_bpm max_bpm : ℚ) : ℕ :=
  np_argmax (tempo_region envelope times sr min_bpm max_bpm)
    + (tempo_min_lag max_bpm (tempo_dt times sr)).toNat

/-- Lines 30-68 of src/engine/tempo.py: `estimate_bpm` after the onset
envelope has been computed. -/
def estimate_bpm_from_envelope (envelope times : List ℚ) (sample_rate : ℚ)
    (min_bpm : ℚ := 60) (max_bpm : ℚ := 200) : ℚ :=
  if envelope.length < 10 then 120
  else if tempo_min_lag max_bpm (tempo_dt times sample_rate) ≥
      tempo_max_lag (tempo_ac envelope).length min_bpm (tempo_dt times sample_rate) then 120
  else if tempo_region envelope times sample_rate min_bpm max_bpm = [] then 120
  else if 0 < ((tempo_peak_idx envelope times sample_rate min_bpm max_bpm : ℕ) : ℚ)
      * tempo_dt times sample_rate
    then 60 / (((tempo_peak_idx envelope times sample_rate min_bpm max_bpm : ℕ) : ℚ)
      * tempo_dt times sample_rate)
    else 120

/-- `estimate_bpm` from src/engine/tempo.py (lines 8-68): envelope
computation followed by autocorrelation peak-picking; exceptions from the
envelope computation propagate. -/
def estimate_bpm (mag : ℕ → List ℚ) (audio : List ℚ) (sample_rate : ℚ)
    (min_bpm : ℚ := 60) (max_bpm : ℚ := 200) : Except PyErr ℚ :=
  match compute_onset_envelope mag audio sample_rate 512 with
  | .error e => .error e
  | .ok (envelope, times) =>
    .ok (estimate_bpm_from_envelope envelope times sample_rate min_bpm max_bpm)

/-! ### Claim C4: tempo fallback and peak conversion -/

theorem np_argmax_aux_cons (x : ℚ) (t : List ℚ) (i bi : ℕ) (bv : ℚ) :
    np_argmax_aux (x :: t) i bi bv
      = if bv < x then np_argmax_aux t (i + 1) i x
        else np_argmax_aux t (i + 1) bi bv := rfl

theorem np_argmax_aux_spec : ∀ (l : List ℚ) (i bi : ℕ) (bv : ℚ),
    (np_argmax_aux l i bi bv = bi ∧ ∀ x ∈ l, x ≤ bv)
    ∨ (∃ j, j < l.length ∧ np_argmax_aux l i bi bv = i + j ∧ bv < l.getD j 0
        ∧ ∀ x ∈ l, x ≤ l.getD j 0) := by
  intro l
  induction l with
  | nil => intro i bi bv; left; exact ⟨rfl, by simp⟩
  | cons a t ih =>
    intro i bi bv
    by_cases h : bv < a
    · rw [np_argmax_aux_cons, if_pos h]
      rcases ih (i + 1) i a with ⟨heq, hub⟩ | ⟨j, hj, heq, hlt, hub⟩
      · right
        refine ⟨0, by simp, by omega, by simpa using h, ?_⟩
        intro x hx
        rcases List.mem_cons.mp hx with hx | hx
        · simp [hx]
        · simpa using hub x hx
      · right
        refine ⟨j + 1, by simpa using hj, by omega, ?_, ?_⟩
        · rw [List.getD_cons_succ]
          exact lt_trans h hlt
        · intro x hx
          rw [List.getD_cons_succ]
          rcases List.mem_cons.mp hx with hx | hx
          · exact hx ▸ le_of_lt hlt
          · exact hub x hx
    · rw [np_argmax_aux_cons, if_neg h]
      rcases ih (i + 1) bi bv with ⟨heq, hub⟩ | ⟨j, hj, heq, hlt, hub⟩
      · left
        refine ⟨heq, ?_⟩
        intro x hx
        rcases List.mem_cons.mp hx with hx | hx
        · exact hx ▸ not_lt.mp h
        · exact hub x hx
      · right
        refine ⟨j + 1, by simpa using hj, by omega, ?_, ?_⟩
        · rw [List.getD_cons_succ]
          exact lt_of_le_of_lt (le_refl bv) hlt
        · intro x hx
          rw [List.getD_cons_succ]
          rcases List.mem_cons.mp hx with hx | hx
          · exact hx ▸ le_trans (not_lt.mp h) (le_of_lt hlt)
          · exact hub x hx

theorem np_argmax_spec (l : List ℚ) (h : l ≠ []) :
    np_argmax l < l.length ∧ ∀ x ∈ l, x ≤ l.getD (np_argmax l) 0 := by
  cases l with
  | nil => exact absurd rfl h
  | cons a t =>
    have hax : np_argmax (a :: t) = np_argmax_aux t 1 0 a := rfl
    rcases np_argmax_aux_spec t 1 0 a with ⟨heq, hub⟩ | ⟨j, hj, heq, hlt, hub⟩
    · rw [hax, heq]
      refine ⟨by simp, ?_⟩
      intro x hx
      rw [List.getD_cons_zero]
      rcases List.mem_cons.mp hx with hx | hx
      · exact le_of_eq hx
      · exact hub x hx
    · rw [hax, heq]
      have hidx : (1 + j : ℕ) = j + 1 := by omega
      rw [hidx]
      constructor
      · simp only [List.length_cons]; omega
      · intro x hx
        rw [List.getD_cons_succ]
        rcases List.mem_cons.mp hx with hx | hx
        · exact hx ▸ le_of_lt hlt
        · exact hub x hx

/-- The property claim C4 states of the tempo estimator, at given envelope,
frame times and BPM bounds. -/
def TempoEstimateProp (envelope times : List ℚ) (sr mnb mxb : ℚ) : Prop :=
  let r := estimate_bpm_from_envelope envelope times sr mnb mxb
  let ac := tempo_ac envelope
  let dt := tempo_dt times sr
  let min_lag := tempo_min_lag mxb dt
  let max_lag := tempo_max_lag ac.length mnb dt
  let region := tempo_region envelope times sr mnb mxb
  let lag := tempo_peak_idx envelope times sr mnb mxb
  (envelope.length < 10 → r = 120)
  ∧ (10 ≤ envelope.length → min_lag ≥ max_lag → r = 120)
  ∧ (10 ≤ envelope.length → region = [] → r = 120)
  ∧ (10 ≤ envelope.length → min_lag < max_lag → 0 < dt →
      r = 60 / ((lag : ℚ) * dt)
      ∧ min_lag.toNat ≤ lag ∧ (lag : ℤ) < max_lag
      ∧ ∀ l : ℕ, min_lag.toNat ≤ l → (l : ℤ) < max_lag →
          ac.getD l 0 ≤ ac.getD lag 0)

/-- Claim C4: the tempo estimator returns the fixed fallback 120 when the
envelope has fewer than 10 frames, when the lag range is degenerate
(`min_lag >= max_lag`), or when the search region is empty; otherwise it
returns `60 / (lag * dt)` for the lag maximizing the autocorrelation within
the BPM-derived lag range `[min_lag, max_lag)`. -/
theorem estimate_bpm_from_envelope_spec (envelope times : List ℚ) (sr mnb mxb : ℚ) :
    TempoEstimateProp envelope times sr mnb mxb := by
  unfold TempoEstimateProp
  refine ⟨?_, ?_, ?_, ?_⟩
  · intro h
    unfold estimate_bpm_from_envelope
    rw [if_pos h]
  · intro h10 hge
    unfold estimate_bpm_from_envelope
    rw [if_neg (not_lt.mpr h10), if_pos hge]
  · intro h10 hreg
    unfold estimate_bpm_from_envelope
    rw [if_neg (not_lt.mpr h10)]
    by_cases hge : tempo_min_lag mxb (tempo_dt times sr) ≥
        tempo_max_lag (tempo_ac envelope).length mnb (tempo_dt times sr)
    · rw [if_pos hge]
    · rw [if_neg hge, if_pos hreg]
  · intro h10 hlt hdt
    set dt := tempo_dt times sr with hdtdef
    set min_lag := tempo_min_lag mxb dt with hmldef
    set max_lag := tempo_max_lag (tempo_ac envelope).length mnb dt with hMldef
    set ac := tempo_ac envelope with hacdef
    have hml1 : 1 ≤ min_lag := le_max_left 1 _
    have haclen : ac.length = envelope.length := by
      rw [hacdef]
      unfold tempo_ac autocorrList centeredEnvelope
      simp
    have hMl_ub : max_lag ≤ (ac.length : ℤ) - 1 := min_le_left _ _
    -- the slice really is `ac[min_lag:max_lag]`
    have hregion_len : (tempo_region envelope times sr mnb mxb).length
        = max_lag.toNat - min_lag.toNat := by
      unfold tempo_region
      rw [← hacdef, ← hdtdef, ← hmldef, ← hMldef]
      rw [List.length_drop, List.length_take]
      have : max_lag.toNat ≤ ac.length := by omega
      omega
    have hregion_ne : tempo_region envelope times sr mnb mxb ≠ [] := by
      intro hc
      have := congrArg List.length hc
      rw [hregion_len] at this
      simp at this
      omega
    have hregion_getD : ∀ j : ℕ, j < max_lag.toNat - min_lag.toNat →
        (tempo_region envelope times sr mnb mxb).getD j 0
          = ac.getD (min_lag.toNat + j) 0 := by
      intro j hj
      unfold tempo_region
      rw [← hacdef, ← hdtdef, ← hmldef, ← hMldef]
      rw [List.getD_eq_getElem?_getD, List.getD_eq_getElem?_getD]
      rw [List.getElem?_drop]
      rw [List.getElem?_take_of_lt (by omega)]
    obtain ⟨hargmax_lt, hargmax_ub⟩ :=
      np_argmax_spec (tempo_region envelope times sr mnb mxb) hregion_ne
    set J := np_argmax (tempo_region envelope times sr mnb mxb) with hJdef
    have hJlt : J < max_lag.toNat - min_lag.toNat := by
      rw [← hregion_len]; exact hargmax_lt
    have hpeak : tempo_peak_idx envelope times sr mnb mxb = J + min_lag.toNat := by
      unfold tempo_peak_idx
      rw [← hdtdef, ← hmldef, ← hJdef]
    have hpos : 0 < ((tempo_peak_idx envelope times sr mnb mxb : ℕ) : ℚ) * dt := by
      apply mul_pos _ hdt
      rw [hpeak]
      have : 1 ≤ J + min_lag.toNat := by omega
      exact_mod_cast Nat.lt_of_lt_of_le Nat.zero_lt_one this
    refine ⟨?_, ?_, ?_, ?_⟩
    · unfold estimate_bpm_from_envelope
      rw [if_neg (not_lt.mpr h10), if_neg (not_le.mpr hlt), if_neg hregion_ne,
        ← hdtdef, if_pos hpos]
    · rw [hpeak]; omega
    · rw [hpeak]
      push_cast
      omega
    · intro l hl1 hl2
      have hlval : ac.getD l 0
          = (tempo_region envelope times sr mnb mxb).getD (l - min_lag.toNat) 0 := by
        rw [hregion_getD (l - min_lag.toNat) (by omega)]
        congr 1
        omega
      have hpeakval : ac.getD (tempo_peak_idx envelope times sr mnb mxb) 0
          = (tempo_region envelope times sr mnb mxb).getD J 0 := by
        rw [hpeak, hregion_getD J hJlt]
        congr 1
        omega
      rw [hlval, hpeakval]
      apply hargmax_ub
      have hlen : l - min_lag.toNat < (tempo_region envelope times sr mnb mxb).length := by
        rw [hregion_len]; omega
      rw [List.getD_eq_getElem _ _ hlen]
      exact List.getElem_mem hlen

/-- Witness for C4 at a concrete periodic envelope (10 frames, dt = 1/10). -/
theorem estimate_bpm_from_envelope_spec_witness :
    TempoEstimateProp [1, 0, 1, 0, 1, 0, 1, 0, 1, 0]
      [0, 1/10, 2/10, 3/10, 4/10, 5/10, 6/10, 7/10, 8/10, 9/10] 1 60 200 :=
  estimate_bpm_from_envelope_spec _ _ _ _ _

/-! ### DSP separation (src/engine/separation.py) -/

/-- A Butterworth filter design, as passed by the source to
`scipy.signal.butter` (src/engine/separation.py lines 40-75): kind, band
edges in Hz, and order.  The numeric filter coefficients and the
`filtfilt` application are scipy kernels, outside this repository; the
embedding records the design applied to each stem. -/
inductive FilterDesign
  | lowpass (cutoff : ℚ) (order : ℕ)
  | highpass (cutoff : ℚ) (order : ℕ)
  | bandpass (low high : ℚ) (order : ℕ)
deriving DecidableEq

/-- One stem's output buffer: `bufId` identifies the numpy array (every
`filtfilt`, `apply_gate` and `.copy()` call returns a fresh array; the input
signal is buffer 0 and the result of loop iteration `i` is buffer `i+1`),
`filt` the filter design applied (none = pass-through copy), and
`gateThresholdDb` the `threshold_db` of `apply_gate` when a gate was
applied. -/
structure StemBuffer where
  bufId : ℕ
  filt : Option FilterDesign
  gateThresholdDb : Option ℚ
deriving DecidableEq

/-- `filter_order = {"fast": 2, "balanced": 4, "best": 6}.get(quality, 4)`
(src/engine/separation.py line 119). -/
def filter_order (quality : String) : ℕ :=
  if quality = "fast" then 2
  else if quality = "balanced" then 4
  else if quality = "best" then 6
  else 4

/-- `apply_gating = quality in ("balanced", "best")` (line 120). -/
def apply_gating (quality : String) : Bool :=
  quality == "balanced" || quality == "best"

/-- The body of the per-stem loop of `separate_drums_bandpass`
(src/engine/separation.py lines 122-160), producing the stem's buffer for
iteration id `bufId`.  Note the `toms` branch applies no gate. -/
def stemOutput (stem quality : String) (bufId : ℕ) : StemBuffer :=
  if stem = "kick" then
    ⟨bufId, some (.lowpass 150 (filter_order quality)),
      if apply_gating quality then some (-35) else none⟩
  else if stem = "snare" then
    ⟨bufId, some (.bandpass 150 4000 (filter_order quality)),
      if apply_gating quality then some (-30) else none⟩
  else if stem = "hihat" then
    ⟨bufId, some (.highpass 5000 (filter_order quality)),
      if apply_gating quality then some (-35) else none⟩
  else if stem = "toms" then
    ⟨bufId, some (.bandpass 80 500 (filter_order quality)), none⟩
  else
    ⟨bufId, none, none⟩   -- result[stem] = audio.copy()

/-- Python dict assignment `d[k] = v`: replace in place, else append. -/
def dictInsert {α : Type} : List (String × α) → String → α → List (String × α)
  | [], k, v => [(k, v)]
  | (k', v') :: t, k, v =>
    if k' = k then (k, v) :: t else (k', v') :: dictInsert t k v

/-- Python dict lookup `d[k]` / `d.get(k)`. -/
def dictLookup {α : Type} : List (String × α) → String → Option α
  | [], _ => none
  | (k', v') :: t, k => if k' = k then some v' else dictLookup t k

def separate_go (quality : String) : List String → ℕ → List (String × StemBuffer) →
    List (String × StemBuffer)
  | [], _, acc => acc
  | stem :: rest, i, acc =>
    separate_go quality rest (i + 1) (dictInsert acc stem (stemOutput stem quality (i + 1)))

theorem separate_go_cons (quality s : String) (rest : List String) (i : ℕ)
    (acc : List (String × StemBuffer)) :
    separate_go quality (s :: rest) i acc
      = separate_go quality rest (i + 1)
          (dictInsert acc s (stemOutput s quality (i + 1))) := rfl

/-- `separate_drums_bandpass` from src/engine/separation.py (lines 106-162):
the `result` dict after the loop over `stems`. -/
def separate_drums_bandpass (stems : List String) (quality : String) :
    List (String × StemBuffer) :=
  separate_go quality stems 0 []

/-- The sample data held by a stem's buffer, given oracles for the external
scipy kernels: `F` for zero-phase filtering (`filtfilt` of a designed filter)
and `G` for `apply_gate` at a threshold.  A pass-through stem holds the input
samples unchanged. -/
def stemData (audio : List ℚ) (F : FilterDesign → List ℚ → List ℚ)
    (G : ℚ → List ℚ → List ℚ) (b : StemBuffer) : List ℚ :=
  match b.filt with
  | none => audio
  | some d =>
    match b.gateThresholdDb with
    | none => F d audio
    | some thr => G thr (F d audio)

theorem stemOutput_bufId (stem quality : String) (i : ℕ) :
    (stemOutput stem quality i).bufId = i := by
  unfold stemOutput
  split_ifs <;> rfl

theorem dictLookup_cons {α : Type} (pk : String) (pv : α) (t : List (String × α))
    (k : String) :
    dictLookup ((pk, pv) :: t) k = if pk = k then some pv else dictLookup t k := rfl

theorem dictInsert_cons {α : Type} (pk : String) (pv : α) (t : List (String × α))
    (k : String) (v : α) :
    dictInsert ((pk, pv) :: t) k v
      = if pk = k then (k, v) :: t else (pk, pv) :: dictInsert t k v := rfl

theorem dictLookup_dictInsert {α : Type} (d : List (String × α)) (k k' : String) (v : α) :
    dictLookup (dictInsert d k v) k' = if k = k' then some v else dictLookup d k' := by
  induction d with
  | nil => rfl
  | cons p t ih =>
    obtain ⟨pk, pv⟩ := p
    rw [dictInsert_cons]
    by_cases h1 : pk = k
    · rw [if_pos h1, dictLookup_cons, dictLookup_cons]
      by_cases h2 : k = k'
      · rw [if_pos h2, if_pos h2]
      · rw [if_neg h2, if_neg h2, if_neg (fun hc => h2 (h1 ▸ hc))]
    · rw [if_neg h1, dictLookup_cons, dictLookup_cons]
      by_cases h2 : pk = k'
      · rw [if_pos h2, if_pos h2, if_neg (fun hc => h1 (h2.trans hc.symm))]
      · rw [if_neg h2, if_neg h2, ih]

/-- Every binding produced by the separation loop comes from some iteration
whose stem name is the binding's key. -/
theorem separate_go_lookup (quality : String) : ∀ (stems : List String) (i : ℕ)
    (acc : List (String × StemBuffer)) (k : String) (v : StemBuffer),
    dictLookup (separate_go quality stems i acc) k = some v →
    dictLookup acc k = some v
    ∨ ∃ j, j < stems.length ∧ stems.getD j "" = k
        ∧ v = stemOutput k quality (i + j + 1) := by
  intro stems
  induction stems with
  | nil => intro i acc k v h; exact Or.inl h
  | cons s rest ih =>
    intro i acc k v h
    rcases ih (i + 1) _ k v h with hacc | ⟨j, hj, hk, hv⟩
    · rw [dictLookup_dictInsert] at hacc
      by_cases hks : s = k
      · right
        refine ⟨0, by simp, by simpa using hks, ?_⟩
        rw [if_pos hks] at hacc
        have hv := Option.some.inj hacc
        rw [← hv, ← hks]
      · left
        rw [if_neg hks] at hacc
        exact hacc
    · right
      exact ⟨j + 1, by simpa using hj, by simpa using hk, by rw [hv]; congr 1; omega⟩

theorem separate_go_preserves (quality : String) : ∀ (stems : List String) (i : ℕ)
    (acc : List (String × StemBuffer)) (k : String),
    (dictLookup acc k).isSome →
    (dictLookup (separate_go quality stems i acc) k).isSome := by
  intro stems
  induction stems with
  | nil => intro i acc k h; exact h
  | cons s rest ih =>
    intro i acc k h
    apply ih
    rw [dictLookup_dictInsert]
    by_cases hks : s = k
    · rw [if_pos hks]; rfl
    · rw [if_neg hks]; exact h

theorem separate_go_mem_isSome (quality : String) : ∀ (stems : List String) (i : ℕ)
    (acc : List (String × StemBuffer)) (k : String), k ∈ stems →
    (dictLookup (separate_go quality stems i acc) k).isSome := by
  intro stems
  induction stems with
  | nil => intro i acc k h; cases h
  | cons s rest ih =>
    intro i acc k h
    rcases List.mem_cons.mp h with h | h
    · rw [separate_go_cons]
      apply separate_go_preserves
      rw [dictLookup_dictInsert, if_pos h.symm]
      rfl
    · rw [separate_go_cons]
      exact ih (i + 1) _ k h

/-! ### Claim C6: unrecognized stems pass through -/

/-- The property claim C6 states of the DSP separator for an unrecognized
stem name `s`: the call completes (the unrecognized branch is a plain
`audio.copy()` and cannot raise), the stem is present in the result, carries
the unmodified input samples under every instantiation of the external
filter/gate kernels, and its buffer aliases neither the input (buffer 0) nor
any other stem's buffer. -/
def PassThroughProp (stems : List String) (quality s : String) : Prop :=
  ∃ b : StemBuffer,
    dictLookup (separate_drums_bandpass stems quality) s = some b
    ∧ b.filt = none ∧ b.gateThresholdDb = none
    ∧ (∀ (audio : List ℚ) (F : FilterDesign → List ℚ → List ℚ)
        (G : ℚ → List ℚ → List ℚ), stemData audio F G b = audio)
    ∧ b.bufId ≠ 0
    ∧ (∀ (s' : String) (b' : StemBuffer),
        dictLookup (separate_drums_bandpass stems quality) s' = some b' →
        s' ≠ s → b'.bufId ≠ b.bufId)

/-- Claim C6: for every requested stem name outside the recognized set
{kick, snare, hihat, toms}, the DSP separator returns an unmodified
pass-through copy of the input for that stem, whose buffer does not alias
the input or any other stem's buffer. -/
theorem separate_drums_bandpass_passthrough (stems : List String) (quality s : String)
    (hs : s ∈ stems) (hrec : s ∉ ["kick", "snare", "hihat", "toms"]) :
    PassThroughProp stems quality s := by
  have hsome := separate_go_mem_isSome quality stems 0 [] s hs
  obtain ⟨b, hb⟩ := Option.isSome_iff_exists.mp hsome
  have hchar := separate_go_lookup quality stems 0 [] s b hb
  rcases hchar with hacc | ⟨j, hj, hk, hv⟩
  · cases hacc
  · have hout : b = ⟨j + 1, none, none⟩ := by
      rw [hv]
      unfold stemOutput
      have h1 : s ≠ "kick" := fun hc => hrec (by rw [hc]; simp)
      have h2 : s ≠ "snare" := fun hc => hrec (by rw [hc]; simp)
      have h3 : s ≠ "hihat" := fun hc => hrec (by rw [hc]; simp)
      have h4 : s ≠ "toms" := fun hc => hrec (by rw [hc]; simp)
      rw [if_neg h1, if_neg h2, if_neg h3, if_neg h4]
      simp
    refine ⟨b, hb, by rw [hout], by rw [hout], ?_, by rw [hout]; simp, ?_⟩
    · intro audio F G
      rw [hout]
      rfl
    · intro s' b' hb' hne
      have hchar' := separate_go_lookup quality stems 0 [] s' b' hb'
      rcases hchar' with hacc' | ⟨j', hj', hk', hv'⟩
      · cases hacc'
      · rw [hv', stemOutput_bufId, hout]
        simp only [ne_eq]
        intro hc
        have hjj : j' = j := by omega
        exact hne ((hk' ▸ hjj ▸ hk).symm ▸ rfl)

/-- Witness for C6: a single unrecognized stem "cowbell" at quality "fast". -/
theorem separate_drums_bandpass_passthrough_witness :
    PassThroughProp ["cowbell"] "fast" "cowbell" :=
  separate_drums_bandpass_passthrough ["cowbell"] "fast" "cowbell"
    (by simp) (by simp)

/-! ### Claim C7: gating and filter order per quality preset -/

/-- Counterexample to claim C7 as stated: under the `balanced` preset the
recognized stem `toms` gets its band-pass filter but no noise gate —
the gate is not applied to every recognized stem. -/
theorem separate_toms_not_gated :
    dictLookup (separate_drums_bandpass ["toms"] "balanced") "toms"
      = some ⟨1, some (.bandpass 80 500 4), none⟩
    ∧ ("toms" ∈ ["kick", "snare", "hihat", "toms"]) := by
  constructor
  · rfl
  · simp

/-- The property claim C7 (as amended) states of the separator under the
`balanced`/`best` presets: kick, snare and hihat are gated at −35, −30 and
−35 dBFS respectively (all within [−35, −30]); toms is filtered but not
gated; and the filter order is 2/4/6 for fast/balanced/best (4 otherwise). -/
def GateOrderProp (stems : List String) (quality : String) : Prop :=
  (∀ b : StemBuffer, dictLookup (separate_drums_bandpass stems quality) "kick" = some b →
      b.filt = some (.lowpass 150 (filter_order quality)) ∧ b.gateThresholdDb = some (-35))
  ∧ (∀ b : StemBuffer, dictLookup (separate_drums_bandpass stems quality) "snare" = some b →
      b.filt = some (.bandpass 150 4000 (filter_order quality)) ∧ b.gateThresholdDb = some (-30))
  ∧ (∀ b : StemBuffer, dictLookup (separate_drums_bandpass stems quality) "hihat" = some b →
      b.filt = some (.highpass 5000 (filter_order quality)) ∧ b.gateThresholdDb = some (-35))
  ∧ (∀ b : StemBuffer, dictLookup (separate_drums_bandpass stems quality) "toms" = some b →
      b.filt = some (.bandpass 80 500 (filter_order quality)) ∧ b.gateThresholdDb = none)
  ∧ (∀ (s : String) (b : StemBuffer) (thr : ℚ),
      dictLookup (separate_drums_bandpass stems quality) s = some b →
      b.gateThresholdDb = some thr → -35 ≤ thr ∧ thr ≤ -30)
  ∧ filter_order "fast" = 2 ∧ filter_order "balanced" = 4 ∧ filter_order "best" = 6

/-- Claim C7 amended: under `balanced`/`best` the gate is applied to kick,
snare and hihat (thresholds −35/−30/−35 dBFS, all in the −30..−35 range) but
not to toms; the filter order per preset is fast=2, balanced=4, best=6. -/
theorem separate_gate_order_spec (stems : List String) (quality : String)
    (hq : quality = "balanced" ∨ quality = "best") :
    GateOrderProp stems quality := by
  have hgate : apply_gating quality = true := by
    rcases hq with h | h <;> simp [apply_gating, h]
  have hval : ∀ (k : String) (b : StemBuffer),
      dictLookup (separate_drums_bandpass stems quality) k = some b →
      ∃ i : ℕ, b = stemOutput k quality i := by
    intro k b hb
    rcases separate_go_lookup quality stems 0 [] k b hb with hacc | ⟨j, _, _, hv⟩
    · cases hacc
    · exact ⟨0 + j + 1, hv⟩
  refine ⟨?_, ?_, ?_, ?_, ?_, rfl, rfl, rfl⟩
  · intro b hb
    obtain ⟨i, hi⟩ := hval _ b hb
    rw [hi]
    unfold stemOutput
    rw [if_pos rfl, hgate]
    exact ⟨rfl, rfl⟩
  · intro b hb
    obtain ⟨i, hi⟩ := hval _ b hb
    rw [hi]
    unfold stemOutput
    rw [if_neg (by decide), if_pos rfl, hgate]
    exact ⟨rfl, rfl⟩
  · intro b hb
    obtain ⟨i, hi⟩ := hval _ b hb
    rw [hi]
    unfold stemOutput
    rw [if_neg (by decide), if_neg (by decide), if_pos rfl, hgate]
    exact ⟨rfl, rfl⟩
  · intro b hb
    obtain ⟨i, hi⟩ := hval _ b hb
    rw [hi]
    unfold stemOutput
    rw [if_neg (by decide), if_neg (by decide), if_neg (by decide), if_pos rfl]
    exact ⟨rfl, rfl⟩
  · intro s b thr hb hthr
    obtain ⟨i, hi⟩ := hval _ b hb
    rw [hi] at hthr
    unfold stemOutput at hthr
    by_cases h1 : s = "kick"
    · rw [if_pos h1, hgate] at hthr
      simp only [if_true] at hthr
      have := Option.some.inj hthr
      constructor <;> rw [← this] <;> norm_num
    · rw [if_neg h1] at hthr
      by_cases h2 : s = "snare"
      · rw [if_pos h2, hgate] at hthr
        simp only [if_true] at hthr
        have := Option.some.inj hthr
        constructor <;> rw [← this] <;> norm_num
      · rw [if_neg h2] at hthr
        by_cases h3 : s = "hihat"
        · rw [if_pos h3, hgate] at hthr
          simp only [if_true] at hthr
          have := Option.some.inj hthr
          constructor <;> rw [← this] <;> norm_num
        · rw [if_neg h3] at hthr
          by_cases h4 : s = "toms"
          · rw [if_pos h4] at hthr
            cases hthr
          · rw [if_neg h4] at hthr
            cases hthr

/-- Witness for the amended C7: all four recognized stems at `balanced`. -/
theorem separate_gate_order_spec_witness :
    GateOrderProp ["kick", "snare", "hihat", "toms"] "balanced" :=
  separate_gate_order_spec ["kick", "snare", "hihat", "toms"] "balanced" (Or.inl rfl)

/-! ### Peak picking (src/engine/onset.py lines 51-91 and
`scipy.signal.find_peaks`)

`pick_peaks` delegates to `scipy.signal.find_peaks(envelope, height=threshold,
distance=min_distance_samples)`.  That call is pure index arithmetic on the
envelope (no FFT), so it is embedded in full: `_local_maxima_1d` (strict local
maxima with plateau midpoints), the height filter, and
`_select_by_peak_distance` (greedy suppression in order of decreasing
priority).  numpy's `argsort` uses an unstable sort, so the visit order among
equal-strength candidates is implementation-defined; the embedding fixes a
deterministic sort by strength, and no theorem below depends on the
tie order. -/

/-- The plateau scan of `_local_maxima_1d`: starting at `i`, the first index
that either reaches `iMax` or holds a value different from `v`. -/
def plateauEnd (x : List ℚ) (v : ℚ) (iMax : ℕ) (i : ℕ) : ℕ :=
  if i < iMax ∧ x.getD i 0 = v then plateauEnd x v iMax (i + 1) else i
termination_by iMax - i
decreasing_by omega

theorem plateauEnd_eq (x : List ℚ) (v : ℚ) (iMax i : ℕ) :
    plateauEnd x v iMax i
      = if i < iMax ∧ x.getD i 0 = v then plateauEnd x v iMax (i + 1) else i := by
  rw [plateauEnd]

theorem plateauEnd_ge (x : List ℚ) (v : ℚ) (iMax : ℕ) :
    ∀ i, i ≤ plateauEnd x v iMax i := by
  have key : ∀ n i, iMax - i ≤ n → i ≤ plateauEnd x v iMax i := by
    intro n
    induction n with
    | zero =>
      intro i h
      rw [plateauEnd_eq]
      have : ¬(i < iMax ∧ x.getD i 0 = v) := fun hc => by omega
      rw [if_neg this]
    | succ n ih =>
      intro i h
      rw [plateauEnd_eq]
      by_cases hc : i < iMax ∧ x.getD i 0 = v
      · rw [if_pos hc]
        have := ih (i + 1) (by omega)
        omega
      · rw [if_neg hc]
  intro i
  exact key (iMax - i) i (le_refl _)

theorem plateauEnd_le (x : List ℚ) (v : ℚ) (iMax : ℕ) :
    ∀ i, plateauEnd x v iMax i ≤ max i iMax := by
  have key : ∀ n i, iMax - i ≤ n → plateauEnd x v iMax i ≤ max i iMax := by
    intro n
    induction n with
    | zero =>
      intro i h
      rw [plateauEnd_eq]
      have : ¬(i < iMax ∧ x.getD i 0 = v) := fun hc => by omega
      rw [if_neg this]
      exact le_max_left _ _
    | succ n ih =>
      intro i h
      rw [plateauEnd_eq]
      by_cases hc : i < iMax ∧ x.getD i 0 = v
      · rw [if_pos hc]
        have := ih (i + 1) (by omega)
        omega
      · rw [if_neg hc]
        exact le_max_left _ _
  intro i
  exact key (iMax - i) i (le_refl _)

/-- The main loop of `scipy.signal._peak_finding_utils._local_maxima_1d`:
`i` scans `[1, iMax)`; a rise followed (after an optional plateau) by a fall
records the plateau midpoint and resumes after the plateau. -/
def localMaximaFrom (x : List ℚ) (iMax : ℕ) (i : ℕ) : List ℕ :=
  if hi : i < iMax then
    if x.getD (i - 1) 0 < x.getD i 0 then
      if x.getD (plateauEnd x (x.getD i 0) iMax (i + 1)) 0 < x.getD i 0 then
        ((i + (plateauEnd x (x.getD i 0) iMax (i + 1) - 1)) / 2)
          :: localMaximaFrom x iMax (plateauEnd x (x.getD i 0) iMax (i + 1) + 1)
      else localMaximaFrom x iMax (i + 1)
    else localMaximaFrom x iMax (i + 1)
  else []
termination_by iMax - i
decreasing_by
  · have := plateauEnd_ge x (x.getD i 0) iMax (i + 1)
    omega
  · omega
  · omega

theorem localMaximaFrom_eq (x : List ℚ) (iMax i : ℕ) :
    localMaximaFrom x iMax i
      = if _ : i < iMax then
          if x.getD (i - 1) 0 < x.getD i 0 then
            if x.getD (plateauEnd x (x.getD i 0) iMax (i + 1)) 0 < x.getD i 0 then
              ((i + (plateauEnd x (x.getD i 0) iMax (i + 1) - 1)) / 2)
                :: localMaximaFrom x iMax (plateauEnd x (x.getD i 0) iMax (i + 1) + 1)
            else localMaximaFrom x iMax (i + 1)
          else localMaximaFrom x iMax (i + 1)
        else [] := by
  rw [localMaximaFrom]

/-- `_local_maxima_1d(x)`: midpoints of the strict local maxima of `x`
(interior samples only). -/
def localMaxima (x : List ℚ) : List ℕ := localMaximaFrom x (x.length - 1) 1

theorem localMaximaFrom_lt (x : List ℚ) (iMax : ℕ) :
    ∀ i, ∀ p ∈ localMaximaFrom x iMax i, i ≤ p ∧ p < iMax := by
  have key : ∀ n i, iMax - i ≤ n → ∀ p ∈ localMaximaFrom x iMax i, i ≤ p ∧ p < iMax := by
    intro n
    induction n with
    | zero =>
      intro i h p hp
      rw [localMaximaFrom_eq, dif_neg (by omega)] at hp
      cases hp
    | succ n ih =>
      intro i h p hp
      rw [localMaximaFrom_eq] at hp
      by_cases hi : i < iMax
      · rw [dif_pos hi] at hp
        by_cases h1 : x.getD (i - 1) 0 < x.getD i 0
        · rw [if_pos h1] at hp
          have hge := plateauEnd_ge x (x.getD i 0) iMax (i + 1)
          have hle := plateauEnd_le x (x.getD i 0) iMax (i + 1)
          set ia := plateauEnd x (x.getD i 0) iMax (i + 1) with hia
          have hiale : ia ≤ max (i + 1) iMax := hle
          by_cases h2 : x.getD ia 0 < x.getD i 0
          · rw [if_pos h2] at hp
            rcases List.mem_cons.mp hp with hp | hp
            · constructor <;> omega
            · have := ih (ia + 1) (by omega) p hp
              constructor <;> omega
          · rw [if_neg h2] at hp
            have := ih (i + 1) (by omega) p hp
            constructor <;> omega
        · rw [if_neg h1] at hp
          have := ih (i + 1) (by omega) p hp
          constructor <;> omega
      · rw [dif_neg hi] at hp
        cases hp
  intro i
  exact key (iMax - i) i (le_refl _)

theorem localMaxima_lt (x : List ℚ) (p : ℕ) (hp : p ∈ localMaxima x) :
    1 ≤ p ∧ p < x.length - 1 :=
  localMaximaFrom_lt x (x.length - 1) 1 p hp

/-- One step of `_select_by_peak_distance`: when the peak at position `j` is
still kept, clear every other position whose peak lies strictly closer than
`d` samples. -/
def nmsStep (pos : ℕ → ℕ) (d : ℕ) (keep : ℕ → Bool) (j : ℕ) : ℕ → Bool :=
  if keep j = true then
    fun k => keep k && (k == j || decide (d ≤ Nat.dist (pos k) (pos j)))
  else keep

/-- The suppression loop of `_select_by_peak_distance`, visiting candidate
positions in the given priority order (highest priority first). -/
def nmsRun (pos : ℕ → ℕ) (d : ℕ) (order : List ℕ) : ℕ → Bool :=
  order.foldl (nmsStep pos d) (fun _ => true)

/-- The visit order of `_select_by_peak_distance`: candidate positions sorted
by priority (peak height) ascending, reversed — i.e. highest first. -/
def peakOrder (cands : List ℕ) (x : List ℚ) : List ℕ :=
  (List.insertionSort
    (fun a b => x.getD (cands.getD a 0) 0 ≤ x.getD (cands.getD b 0) 0)
    (List.range cands.length)).reverse

/-- `scipy.signal.find_peaks(x, height, distance)`: local maxima, filtered by
height (kept iff `height ≤ x[p]`), then greedy minimum-distance suppression;
the surviving peak indices in ascending order. -/
def find_peaks (x : List ℚ) (height : ℚ) (distance : ℕ) : List ℕ :=
  ((List.range ((localMaxima x).filter (fun p => decide (height ≤ x.getD p 0))).length).filter
    (fun k => nmsRun
      (fun k' => ((localMaxima x).filter (fun p => decide (height ≤ x.getD p 0))).getD k' 0)
      distance
      (peakOrder ((localMaxima x).filter (fun p => decide (height ≤ x.getD p 0))) x) k)).map
    (fun k => ((localMaxima x).filter (fun p => decide (height ≤ x.getD p 0))).getD k 0)

/-- `min_distance_samples = max(1, int(min_distance_sec / dt))` when more
than one time point is available, else 1 (src/engine/onset.py lines 71-76). -/
def pick_distance (times : List ℚ) (min_distance_sec : ℚ) : ℕ :=
  if 1 < times.length then
    (max 1 (py_int (min_distance_sec / (times.getD 1 0 - times.getD 0 0)))).toNat
  else 1

/-- `pick_peaks` from src/engine/onset.py (lines 51-91). -/
def pick_peaks (envelope times : List ℚ) (threshold : ℚ := 1/10)
    (min_distance_sec : ℚ := 3/100) : List ℚ × List ℚ :=
  if envelope.length < 3 then ([], [])
  else
    if find_peaks envelope threshold (pick_distance times min_distance_sec) = [] then ([], [])
    else
      ((find_peaks envelope threshold (pick_distance times min_distance_sec)).map
          (fun p => times.getD p 0),
       (find_peaks envelope threshold (pick_distance times min_distance_sec)).map
          (fun p => envelope.getD p 0))

/-- `detect_onsets_with_strength` from src/engine/onset.py (lines 116-135). -/
def detect_onsets_with_strength (mag : ℕ → List ℚ) (audio : List ℚ)
    (sample_rate : ℚ) (threshold : ℚ := 1/10) (min_distance_sec : ℚ := 3/100) :
    Except PyErr (List ℚ × List ℚ) :=
  match compute_onset_envelope mag audio sample_rate 512 with
  | .error e => .error e
  | .ok (envelope, times) => .ok (pick_peaks envelope times threshold min_distance_sec)

/-! ### Pipeline (src/engine/pipeline.py, lines 16-131)

`process_drum_audio` is translated from the source with its I/O abstracted:
the input audio is given directly (in place of `read_audio`), and writing the
stem files, the MIDI file and report.json are side effects outside the data
flow.  The per-stem RMS/peak statistics need real `sqrt`/`log10` and are not
modelled; no claim below concerns them.  The ML backend needs the external
`torch`/`demucs` runtime; the embedding models the environment without it
(`check_demucs_available() == False`), where every method routes to the
band-pass separator.  Notably, the source performs no validation of `stems`,
`bpm` or `quantize` anywhere. -/

/-- The `Report` dict assembled at the end of `process_drum_audio` (the
fields the embedding models). -/
structure Report where
  sample_rate : ℚ
  duration : ℚ
  bpm : ℚ
  onsets_count : List (String × ℕ)
  total_midi_notes : ℕ
  stems : List String
deriving DecidableEq

/-- `separate_drums` from src/engine/separation.py (lines 341-384) in an
environment without the ML runtime: `auto` and `demucs` fall back to the
band-pass separator (the latter with a printed warning), `bandpass` uses it
directly, and any other method raises `ValueError`. -/
def separate_drums_no_ml (stems : List String) (quality method : String) :
    Except PyErr (List (String × StemBuffer)) :=
  if method = "auto" ∨ method = "demucs" ∨ method = "bandpass" then
    .ok (separate_drums_bandpass stems quality)
  else .error .valueError

/-- The per-stem loop of `process_drum_audio` (lines 86-107): detect onsets
on each separated stem, optionally quantize, and collect `drum_onsets` and
`onsets_count` in iteration order.  An exception aborts the whole run. -/
def processStems (mag : List ℚ → ℕ → List ℚ) (F : FilterDesign → List ℚ → List ℚ)
    (G : ℚ → List ℚ → List ℚ) (audio : List ℚ) (sample_rate : ℚ)
    (bpmv quantize : ℚ) :
    List (String × StemBuffer) →
    Except PyErr (List (String × List ℚ × List ℚ) × List (String × ℕ))
  | [] => .ok ([], [])
  | (name, buf) :: rest =>
    match detect_onsets_with_strength (mag (stemData audio F G buf))
        (stemData audio F G buf) sample_rate with
    | .error e => .error e
    | .ok (times, strengths) =>
      -- `if quantize > 0 and len(times) > 0: times = quantize_onsets(...)`
      match processStems mag F G audio sample_rate bpmv quantize rest with
      | .error e => .error e
      | .ok (onsets, counts) =>
        .ok ((name,
              (if 0 < quantize ∧ times ≠ []
               then quantize_onsets times bpmv 16 quantize else times),
              strengths) :: onsets,
             (name,
              (if 0 < quantize ∧ times ≠ []
               then quantize_onsets times bpmv 16 quantize else times).length) :: counts)

/-- `if bpm == "auto": detected_bpm = estimate_bpm(...) else: detected_bpm =
float(bpm)` (src/engine/pipeline.py lines 53-57); `none` is `"auto"`. -/
def resolve_bpm (mag : List ℚ → ℕ → List ℚ) (audio : List ℚ) (sample_rate : ℚ)
    (bpm : Option ℚ) : Except PyErr ℚ :=
  match bpm with
  | none => estimate_bpm (mag audio) audio sample_rate 60 200
  | some v => .ok v

/-- `process_drum_audio` from src/engine/pipeline.py (lines 16-131).
`bpm = none` is `"auto"`. -/
def process_drum_audio (mag : List ℚ → ℕ → List ℚ)
    (F : FilterDesign → List ℚ → List ℚ) (G : ℚ → List ℚ → List ℚ)
    (audio : List ℚ) (sample_rate : ℚ) (stems : List String)
    (bpm : Option ℚ) (quantize : ℚ) (quality method : String) :
    Except PyErr Report :=
  match resolve_bpm mag audio sample_rate bpm with
  | .error e => .error e
  | .ok detected_bpm =>
    match separate_drums_no_ml stems quality method with
    | .error e => .error e
    | .ok separated =>
      match processStems mag F G audio sample_rate detected_bpm quantize separated with
      | .error e => .error e
      | .ok (drum_onsets, onsets_count) =>
        .ok { sample_rate := sample_rate
              duration := (audio.length : ℚ) / sample_rate
              bpm := detected_bpm
              onsets_count := onsets_count
              total_midi_notes := (create_drum_midi_notes drum_onsets).2
              stems := stems }

/-! ### Claim C9: no configuration validation in the pipeline -/

theorem spectrogram_error_valueError (mag : ℕ → List ℚ) (n : ℕ) (fs : ℚ)
    (nperseg noverlap : ℕ) (e : PyErr)
    (h : spectrogram mag n fs nperseg noverlap = .error e) : e = .valueError := by
  unfold spectrogram at h
  by_cases h0 : n = 0
  · rw [if_pos h0] at h
    exact (Except.error.inj h).symm
  · rw [if_neg h0] at h
    by_cases h1 : noverlap ≥ min nperseg n
    · rw [if_pos h1] at h
      exact (Except.error.inj h).symm
    · rw [if_neg h1] at h
      cases h

theorem compute_onset_envelope_error_valueError (mag : ℕ → List ℚ)
    (audio : List ℚ) (sr : ℚ) (hop : ℕ) (e : PyErr)
    (h : compute_onset_envelope mag audio sr hop = .error e) : e = .valueError := by
  unfold compute_onset_envelope at h
  cases hs : spectrogram mag audio.length sr 2048 (2048 - hop) with
  | error e' =>
    rw [hs] at h
    have := Except.error.inj h
    rw [← this]
    exact spectrogram_error_valueError _ _ _ _ _ _ hs
  | ok v =>
    obtain ⟨cols, times⟩ := v
    rw [hs] at h
    simp only at h
    by_cases hne : List.zipWith spectralFlux cols (cols.drop 1) = []
    · rw [if_pos hne] at h
      exact (Except.error.inj h).symm
    · rw [if_neg hne] at h
      split at h <;> cases h

theorem detect_error_valueError (mag : ℕ → List ℚ) (audio : List ℚ) (sr θ mds : ℚ)
    (e : PyErr) (h : detect_onsets_with_strength mag audio sr θ mds = .error e) :
    e = .valueError := by
  unfold detect_onsets_with_strength at h
  cases hs : compute_onset_envelope mag audio sr 512 with
  | error e' =>
    rw [hs] at h
    have := Except.error.inj h
    rw [← this]
    exact compute_onset_envelope_error_valueError _ _ _ _ _ hs
  | ok v =>
    obtain ⟨env, times⟩ := v
    rw [hs] at h
    cases h

theorem processStems_error_valueError (mag : List ℚ → ℕ → List ℚ)
    (F : FilterDesign → List ℚ → List ℚ) (G : ℚ → List ℚ → List ℚ)
    (audio : List ℚ) (sr bpmv quantize : ℚ) :
    ∀ (l : List (String × StemBuffer)) (e : PyErr),
    processStems mag F G audio sr bpmv quantize l = .error e → e = .valueError := by
  intro l
  induction l with
  | nil => intro e h; cases h
  | cons p rest ih =>
    intro e h
    obtain ⟨name, buf⟩ := p
    unfold processStems at h
    cases hd : detect_onsets_with_strength (mag (stemData audio F G buf))
        (stemData audio F G buf) sr with
    | error e' =>
      rw [hd] at h
      have := Except.error.inj h
      rw [← this]
      exact detect_error_valueError _ _ _ _ _ _ hd
    | ok v =>
      obtain ⟨times, strengths⟩ := v
      rw [hd] at h
      simp only at h
      cases hr : processStems mag F G audio sr bpmv quantize rest with
      | error e' =>
        rw [hr] at h
        have := Except.error.inj h
        rw [← this]
        exact ih e' hr
      | ok v' =>
        obtain ⟨onsets, counts⟩ := v'
        rw [hr] at h
        cases h

theorem estimate_bpm_error_valueError (mag : ℕ → List ℚ) (audio : List ℚ)
    (sr mnb mxb : ℚ) (e : PyErr)
    (h : estimate_bpm mag audio sr mnb mxb = .error e) : e = .valueError := by
  unfold estimate_bpm at h
  cases hc : compute_onset_envelope mag audio sr 512 with
  | error e' =>
    rw [hc] at h
    have h2 := Except.error.inj h
    rw [← h2]
    exact compute_onset_envelope_error_valueError _ _ _ _ _ hc
  | ok v =>
    obtain ⟨env, times⟩ := v
    rw [hc] at h
    cases h

theorem resolve_bpm_error_valueError (mag : List ℚ → ℕ → List ℚ) (audio : List ℚ)
    (sr : ℚ) (bpm : Option ℚ) (e : PyErr)
    (h : resolve_bpm mag audio sr bpm = .error e) : e = .valueError := by
  cases bpm with
  | none => exact estimate_bpm_error_valueError _ _ _ _ _ _ h
  | some v => cases h

/-- Claim C9 amended, part 1: no run of the pipeline ever fails with the
spec's `InvalidConfigError` — the code performs no configuration validation
at all and defines no such error; the only failures are `ValueError`s
propagated from the numeric stages. -/
theorem process_drum_audio_never_invalidConfig (mag : List ℚ → ℕ → List ℚ)
    (F : FilterDesign → List ℚ → List ℚ) (G : ℚ → List ℚ → List ℚ)
    (audio : List ℚ) (sample_rate : ℚ) (stems : List String)
    (bpm : Option ℚ) (quantize : ℚ) (quality method : String) :
    process_drum_audio mag F G audio sample_rate stems bpm quantize quality method
      ≠ .error .invalidConfigError := by
  intro h
  have herr : ∀ e : PyErr,
      process_drum_audio mag F G audio sample_rate stems bpm quantize quality method
        = .error e → e = .valueError := by
    intro e he
    unfold process_drum_audio at he
    cases hb : resolve_bpm mag audio sample_rate bpm with
    | error e' =>
      rw [hb] at he
      have := Except.error.inj he
      rw [← this]
      exact resolve_bpm_error_valueError _ _ _ _ _ hb
    | ok detected =>
      rw [hb] at he
      simp only at he
      cases hsep : separate_drums_no_ml stems quality method with
      | error e' =>
        rw [hsep] at he
        have := Except.error.inj he
        rw [← this]
        unfold separate_drums_no_ml at hsep
        split at hsep
        · cases hsep
        · exact (Except.error.inj hsep).symm
      | ok separated =>
        rw [hsep] at he
        simp only at he
        cases hps : processStems mag F G audio sample_rate detected quantize separated with
        | error e' =>
          rw [hps] at he
          have := Except.error.inj he
          rw [← this]
          exact processStems_error_valueError _ _ _ _ _ _ _ _ _ hps
        | ok v =>
          obtain ⟨dro, oc⟩ := v
          rw [hps] at he
          cases he
  have := herr _ h
  cases this

/-- Counterexample to claim C9 as stated: a configuration that is invalid on
all three counts the claim lists — unrecognized stem name ("cowbell"),
non-positive explicit BPM (−30), out-of-range quantize strength (2) — is not
rejected: the pipeline runs to completion and emits a full report.  There is
no fail-fast validation and no `InvalidConfigError` in the code. -/
theorem process_drum_audio_accepts_invalid_config :
    gmLookup "cowbell" = none
    ∧ "cowbell" ∉ ["kick", "snare", "hihat", "toms"]
    ∧ ((-30 : ℚ) ≤ 0)
    ∧ ¬ ((2 : ℚ) ≤ 1)
    ∧ process_drum_audio (fun _ _ => []) (fun _ l => l) (fun _ l => l)
        (List.replicate 2560 (0 : ℚ)) 1 ["cowbell"] (some (-30)) 2 "balanced" "auto"
      = .ok ⟨1, 2560, -30, [("cowbell", 0)], 0, ["cowbell"]⟩ := by
  have hdetect : detect_onsets_with_strength (fun _ => ([] : List ℚ))
      (List.replicate 2560 (0 : ℚ)) 1 (1/10) (3/100) = .ok ([], []) := by
    unfold detect_onsets_with_strength
    have henv : compute_onset_envelope (fun _ => ([] : List ℚ))
        (List.replicate 2560 (0 : ℚ)) 1 512 = .ok ([0], [(2048 / 2 + 1 * 512) / 1]) := by
      unfold compute_onset_envelope spectrogram
      norm_num [List.length_replicate, List.range_succ, spectralFlux, np_max_val]
    rw [henv]
    rfl
  refine ⟨rfl, by simp, by norm_num, by norm_num, ?_⟩
  have hsep : separate_drums_no_ml ["cowbell"] "balanced" "auto"
      = .ok [("cowbell", ⟨1, none, none⟩)] := rfl
  have hps : processStems (fun _ _ => ([] : List ℚ)) (fun _ l => l) (fun _ l => l)
      (List.replicate 2560 (0 : ℚ)) 1 (-30) 2 [("cowbell", ⟨1, none, none⟩)]
      = .ok ([("cowbell", [], [])], [("cowbell", 0)]) := by
    unfold processStems
    rw [show detect_onsets_with_strength
        ((fun (_ : List ℚ) (_ : ℕ) => ([] : List ℚ))
          (stemData (List.replicate 2560 (0 : ℚ)) (fun _ l => l) (fun _ l => l)
            ⟨1, none, none⟩))
        (stemData (List.replicate 2560 (0 : ℚ)) (fun _ l => l) (fun _ l => l)
          ⟨1, none, none⟩) 1 (1/10) (3/100) = .ok ([], []) from hdetect]
    norm_num
    rw [show processStems (fun _ _ => ([] : List ℚ)) (fun _ l => l) (fun _ l => l)
        (List.replicate 2560 (0 : ℚ)) 1 (-30) 2 [] = .ok ([], []) from rfl]
  unfold process_drum_audio
  rw [show resolve_bpm (fun _ _ => ([] : List ℚ)) (List.replicate 2560 (0 : ℚ)) 1
      (some (-30)) = .ok (-30) from rfl]
  simp only
  rw [hsep]
  simp only
  rw [hps]
  simp only [List.length_replicate]
  have h0 : (create_drum_midi_notes [("cowbell", ([] : List ℚ), ([] : List ℚ))]).2 = 0 := rfl
  rw [h0]
  norm_num

/-! ### Claim C5: minimum-distance suppression

Lemmas about the greedy suppression `nmsRun`: flags only ever go from kept to
cleared; a position processed while still kept clears every other position
strictly closer than `d` and is itself never cleared afterwards. -/

theorem nmsStep_true_of (pos : ℕ → ℕ) (d : ℕ) (keep : ℕ → Bool) (j k' : ℕ)
    (h : nmsStep pos d keep j k' = true) : keep k' = true := by
  unfold nmsStep at h
  by_cases hj : keep j = true
  · rw [if_pos hj] at h
    exact (Bool.and_eq_true _ _ |>.mp h).1
  · rw [if_neg hj] at h
    exact h

theorem nmsFold_true_of (pos : ℕ → ℕ) (d : ℕ) :
    ∀ (l : List ℕ) (keep : ℕ → Bool) (k' : ℕ),
    (l.foldl (nmsStep pos d) keep) k' = true → keep k' = true := by
  intro l
  induction l with
  | nil => intro keep k' h; exact h
  | cons a t ih =>
    intro keep k' h
    exact nmsStep_true_of pos d keep a k' (ih _ k' h)

theorem nmsFold_false (pos : ℕ → ℕ) (d : ℕ) (l : List ℕ) (keep : ℕ → Bool) (k' : ℕ)
    (h : keep k' = false) : (l.foldl (nmsStep pos d) keep) k' = false := by
  cases hres : (l.foldl (nmsStep pos d) keep) k' with
  | false => rfl
  | true => rw [nmsFold_true_of pos d l keep k' hres] at h; cases h

theorem nmsStep_clears (pos : ℕ → ℕ) (d : ℕ) (keep : ℕ → Bool) (j k' : ℕ)
    (hj : keep j = true) (hne : k' ≠ j) (hd : Nat.dist (pos k') (pos j) < d) :
    nmsStep pos d keep j k' = false := by
  unfold nmsStep
  rw [if_pos hj]
  show (keep k' && (k' == j || decide (d ≤ Nat.dist (pos k') (pos j)))) = false
  have h1 : (k' == j) = false := beq_eq_false_iff_ne.mpr hne
  have h2 : decide (d ≤ Nat.dist (pos k') (pos j)) = false :=
    decide_eq_false (not_le.mpr hd)
  rw [h1, h2]
  exact Bool.and_false _

theorem nmsStep_inv (pos : ℕ → ℕ) (d : ℕ) (keep : ℕ → Bool) (j r : ℕ)
    (h1 : keep r = true)
    (h2 : ∀ k', k' ≠ r → Nat.dist (pos k') (pos r) < d → keep k' = false) :
    (nmsStep pos d keep j) r = true
    ∧ ∀ k', k' ≠ r → Nat.dist (pos k') (pos r) < d → (nmsStep pos d keep j) k' = false := by
  unfold nmsStep
  by_cases hj : keep j = true
  · rw [if_pos hj]
    constructor
    · by_cases hjr : j = r
      · subst hjr
        show (keep j && (j == j || _)) = true
        simp [hj]
      · have hdist : ¬ Nat.dist (pos j) (pos r) < d := by
          intro hc
          rw [h2 j hjr hc] at hj
          cases hj
        show (keep r && (r == j || decide (d ≤ Nat.dist (pos r) (pos j)))) = true
        have hd2 : d ≤ Nat.dist (pos r) (pos j) := by
          rw [Nat.dist_comm]
          omega
        simp [h1, hd2]
    · intro k' hk hd'
      show (keep k' && _) = false
      rw [h2 k' hk hd']
      exact Bool.false_and _
  · rw [if_neg hj]
    exact ⟨h1, h2⟩

theorem nmsFold_inv (pos : ℕ → ℕ) (d : ℕ) :
    ∀ (l : List ℕ) (keep : ℕ → Bool) (r : ℕ),
    keep r = true →
    (∀ k', k' ≠ r → Nat.dist (pos k') (pos r) < d → keep k' = false) →
    (l.foldl (nmsStep pos d) keep) r = true := by
  intro l
  induction l with
  | nil => intro keep r h1 _; exact h1
  | cons a t ih =>
    intro keep r h1 h2
    obtain ⟨h1', h2'⟩ := nmsStep_inv pos d keep a r h1 h2
    exact ih _ r h1' h2'

theorem nmsFold_flip (pos : ℕ → ℕ) (d : ℕ) :
    ∀ (l : List ℕ) (keep : ℕ → Bool) (j : ℕ),
    keep j = true → (l.foldl (nmsStep pos d) keep) j = false →
    ∃ l₁ r l₂, l = l₁ ++ r :: l₂
      ∧ (l₁.foldl (nmsStep pos d) keep) j = true
      ∧ nmsStep pos d (l₁.foldl (nmsStep pos d) keep) r j = false := by
  intro l
  induction l with
  | nil =>
    intro keep j h1 h2
    rw [List.foldl_nil] at h2
    rw [h1] at h2
    cases h2
  | cons a t ih =>
    intro keep j h1 h2
    rw [List.foldl_cons] at h2
    cases hstep : nmsStep pos d keep a j with
    | true =>
      obtain ⟨l₁, r, l₂, heq, hk1, hk2⟩ := ih (nmsStep pos d keep a) j hstep h2
      exact ⟨a :: l₁, r, l₂, by rw [heq, List.cons_append], by rw [List.foldl_cons]; exact hk1,
        by rw [List.foldl_cons]; exact hk2⟩
    | false =>
      exact ⟨[], a, t, rfl, h1, hstep⟩

theorem nmsStep_self_inv (pos : ℕ → ℕ) (d : ℕ) (keep : ℕ → Bool) (r : ℕ)
    (hr : keep r = true) :
    (nmsStep pos d keep r) r = true
    ∧ ∀ k', k' ≠ r → Nat.dist (pos k') (pos r) < d → (nmsStep pos d keep r) k' = false := by
  constructor
  · unfold nmsStep
    rw [if_pos hr]
    show (keep r && (r == r || _)) = true
    simp [hr]
  · intro k' hk hd'
    exact nmsStep_clears pos d keep r k' hr hk hd'

theorem nmsStep_flip_elim (pos : ℕ → ℕ) (d : ℕ) (keep : ℕ → Bool) (r j : ℕ)
    (hj : keep j = true) (h : nmsStep pos d keep r j = false) :
    keep r = true ∧ j ≠ r ∧ Nat.dist (pos j) (pos r) < d := by
  unfold nmsStep at h
  by_cases hr : keep r = true
  · rw [if_pos hr] at h
    change (keep j && (j == r || decide (d ≤ Nat.dist (pos j) (pos r)))) = false at h
    rw [hj, Bool.true_and] at h
    simp only [Bool.or_eq_false_iff, beq_eq_false_iff_ne, decide_eq_false_iff_not,
      not_le] at h
    exact ⟨hr, h.1, h.2⟩
  · rw [if_neg hr] at h
    rw [h] at hj
    cases hj

/-- Any two positions both kept by the suppression loop are at least
`d` samples apart. -/
theorem nmsRun_min_dist (pos : ℕ → ℕ) (d : ℕ) (order : List ℕ) (j j' : ℕ)
    (hj : j ∈ order) (hne : j' ≠ j)
    (h1 : nmsRun pos d order j = true) (h2 : nmsRun pos d order j' = true) :
    d ≤ Nat.dist (pos j') (pos j) := by
  by_contra hc
  push_neg at hc
  obtain ⟨o₁, o₂, ho⟩ := List.append_of_mem hj
  have hsplit : nmsRun pos d order
      = o₂.foldl (nmsStep pos d)
          (nmsStep pos d (o₁.foldl (nmsStep pos d) (fun _ => true)) j) := by
    rw [ho]
    unfold nmsRun
    rw [List.foldl_append, List.foldl_cons]
  have hjtrue : nmsStep pos d (o₁.foldl (nmsStep pos d) (fun _ => true)) j j = true := by
    have h1' := h1
    rw [hsplit] at h1'
    exact nmsFold_true_of pos d o₂ _ j h1'
  have hj1 : (o₁.foldl (nmsStep pos d) (fun _ => true)) j = true :=
    nmsStep_true_of pos d _ j j hjtrue
  have hclear : nmsStep pos d (o₁.foldl (nmsStep pos d) (fun _ => true)) j j' = false :=
    nmsStep_clears pos d _ j j' hj1 hne hc
  have hfinal : nmsRun pos d order j' = false := by
    rw [hsplit]
    exact nmsFold_false pos d o₂ _ j' hclear
  rw [hfinal] at h2
  cases h2

/-- Any position cleared by the suppression loop lies strictly closer than
`d` to some kept position of greater or equal priority. -/
theorem nmsRun_suppressed (pos : ℕ → ℕ) (d : ℕ) (order : List ℕ) (prio : ℕ → ℚ)
    (hsort : order.Pairwise (fun a b => prio b ≤ prio a)) (j : ℕ) (hj : j ∈ order)
    (hfalse : nmsRun pos d order j = false) :
    ∃ r ∈ order, nmsRun pos d order r = true ∧ r ≠ j
      ∧ Nat.dist (pos j) (pos r) < d ∧ prio j ≤ prio r := by
  obtain ⟨l₁, r, l₂, heq, h1, h2⟩ :=
    nmsFold_flip pos d order (fun _ => true) j rfl hfalse
  obtain ⟨hr_true, hjr, hdist⟩ := nmsStep_flip_elim pos d _ r j h1 h2
  have hrun_eq : nmsRun pos d order
      = l₂.foldl (nmsStep pos d)
          (nmsStep pos d (l₁.foldl (nmsStep pos d) (fun _ => true)) r) := by
    rw [heq]
    unfold nmsRun
    rw [List.foldl_append, List.foldl_cons]
  have hrfinal : nmsRun pos d order r = true := by
    rw [hrun_eq]
    obtain ⟨ha, hb⟩ := nmsStep_self_inv pos d _ r hr_true
    exact nmsFold_inv pos d l₂ _ r ha hb
  have hrmem : r ∈ order := by
    rw [heq]
    exact List.mem_append_right _ (List.mem_cons_self _ _)
  refine ⟨r, hrmem, hrfinal, fun hc => hjr hc.symm, hdist, ?_⟩
  -- priority: j cannot be in l₁ (it would have cleared r), so it follows r
  have hjmem : j ∈ l₁ ∨ j = r ∨ j ∈ l₂ := by
    have := heq ▸ hj
    rcases List.mem_append.mp this with h | h
    · exact Or.inl h
    · rcases List.mem_cons.mp h with h | h
      · exact Or.inr (Or.inl h)
      · exact Or.inr (Or.inr h)
  rcases hjmem with hjl | hjeq | hjl
  · exfalso
    obtain ⟨a, b, hab⟩ := List.append_of_mem hjl
    have hsplit1 : l₁.foldl (nmsStep pos d) (fun _ => true)
        = b.foldl (nmsStep pos d)
            (nmsStep pos d (a.foldl (nmsStep pos d) (fun _ => true)) j) := by
      rw [hab, List.foldl_append, List.foldl_cons]
    have hjtrue : nmsStep pos d (a.foldl (nmsStep pos d) (fun _ => true)) j j = true := by
      have h1' := h1
      rw [hsplit1] at h1'
      exact nmsFold_true_of pos d b _ j h1'
    have hja : (a.foldl (nmsStep pos d) (fun _ => true)) j = true :=
      nmsStep_true_of pos d _ j j hjtrue
    have hclear : nmsStep pos d (a.foldl (nmsStep pos d) (fun _ => true)) j r = false := by
      apply nmsStep_clears pos d _ j r hja (fun hc => hjr hc.symm)
      rw [Nat.dist_comm]
      exact hdist
    have : (l₁.foldl (nmsStep pos d) (fun _ => true)) r = false := by
      rw [hsplit1]
      exact nmsFold_false pos d b _ r hclear
    rw [this] at hr_true
    cases hr_true
  · exact absurd hjeq hjr
  · have hpair : (r :: l₂).Pairwise (fun a b => prio b ≤ prio a) := by
      have hsub : (r :: l₂).Sublist order := heq ▸ List.sublist_append_right l₁ (r :: l₂)
      exact hsort.sublist hsub
    exact (List.pairwise_cons.mp hpair).1 j hjl

theorem peakOrder_mem_iff (cands : List ℕ) (x : List ℚ) (i : ℕ) :
    i ∈ peakOrder cands x ↔ i < cands.length := by
  unfold peakOrder
  rw [List.mem_reverse]
  rw [(List.perm_insertionSort _ (List.range cands.length)).mem_iff]
  exact List.mem_range

theorem peakOrder_sorted (cands : List ℕ) (x : List ℚ) :
    (peakOrder cands x).Pairwise
      (fun a b => x.getD (cands.getD b 0) 0 ≤ x.getD (cands.getD a 0) 0) := by
  unfold peakOrder
  rw [List.pairwise_reverse]
  haveI : IsTotal ℕ (fun a b => x.getD (cands.getD a 0) 0 ≤ x.getD (cands.getD b 0) 0) :=
    ⟨fun a b => le_total _ _⟩
  haveI : IsTrans ℕ (fun a b => x.getD (cands.getD a 0) 0 ≤ x.getD (cands.getD b 0) 0) :=
    ⟨fun a b c hab hbc => le_trans hab hbc⟩
  exact List.sorted_insertionSort _ _

/-- The properties of `scipy.signal.find_peaks(x, height, distance)` that
claim C5 depends on: every reported peak is a height-qualified local maximum;
any two reported peaks are at least `distance` samples apart; and every
qualified candidate not reported lies strictly closer than `distance` to a
reported peak of greater or equal strength. -/
theorem find_peaks_spec (x : List ℚ) (θ : ℚ) (d : ℕ) :
    (∀ p ∈ find_peaks x θ d,
        p ∈ (localMaxima x).filter (fun p => decide (θ ≤ x.getD p 0)))
    ∧ (∀ p ∈ find_peaks x θ d, ∀ q ∈ find_peaks x θ d, p ≠ q → d ≤ Nat.dist p q)
    ∧ (∀ c ∈ (localMaxima x).filter (fun p => decide (θ ≤ x.getD p 0)),
        c ∉ find_peaks x θ d →
        ∃ r ∈ find_peaks x θ d, Nat.dist c r < d ∧ x.getD c 0 ≤ x.getD r 0) := by
  set cands := (localMaxima x).filter (fun p => decide (θ ≤ x.getD p 0)) with hcands
  set pos : ℕ → ℕ := fun k' => cands.getD k' 0 with hpos
  set keepF := nmsRun pos d (peakOrder cands x) with hkeep
  have hfp : find_peaks x θ d
      = ((List.range cands.length).filter (fun k => keepF k)).map pos := rfl
  have hmem_of_keep : ∀ i, i < cands.length → keepF i = true → pos i ∈ find_peaks x θ d := by
    intro i hi hk
    rw [hfp]
    exact List.mem_map_of_mem pos
      (List.mem_filter.mpr ⟨List.mem_range.mpr hi, hk⟩)
  have hkept_shape : ∀ p ∈ find_peaks x θ d,
      ∃ i, i < cands.length ∧ keepF i = true ∧ p = pos i := by
    intro p hp
    rw [hfp] at hp
    obtain ⟨i, hi, hpi⟩ := List.mem_map.mp hp
    obtain ⟨hir, hik⟩ := List.mem_filter.mp hi
    exact ⟨i, List.mem_range.mp hir, hik, hpi.symm⟩
  refine ⟨?_, ?_, ?_⟩
  · intro p hp
    obtain ⟨i, hi, _, hpi⟩ := hkept_shape p hp
    rw [hpi]
    show cands.getD i 0 ∈ cands
    rw [List.getD_eq_getElem cands 0 hi]
    exact List.getElem_mem hi
  · intro p hp q hq hne
    obtain ⟨i, hi, hik, hpi⟩ := hkept_shape p hp
    obtain ⟨i', hi', hik', hpi'⟩ := hkept_shape q hq
    have hii : i' ≠ i := by
      intro hc
      rw [hpi, hpi', hc] at hne
      exact hne rfl
    have := nmsRun_min_dist pos d (peakOrder cands x) i i'
      ((peakOrder_mem_iff cands x i).mpr hi) hii hik hik'
    rw [hpi, hpi']
    rw [Nat.dist_comm]
    exact this
  · intro c hc hcnot
    obtain ⟨i, hi, hci⟩ := List.mem_iff_getElem.mp hc
    have hcd : pos i = c := by
      show cands.getD i 0 = c
      rw [List.getD_eq_getElem cands 0 hi]
      exact hci
    have hikf : keepF i = false := by
      cases hk : keepF i with
      | false => rfl
      | true => exact absurd (hcd ▸ hmem_of_keep i hi hk) hcnot
    obtain ⟨r, hrmem, hrtrue, hrne, hrdist, hrprio⟩ :=
      nmsRun_suppressed pos d (peakOrder cands x)
        (fun k' => x.getD (cands.getD k' 0) 0) (peakOrder_sorted cands x) i
        ((peakOrder_mem_iff cands x i).mpr hi) hikf
    have hrlt : r < cands.length := (peakOrder_mem_iff cands x r).mp hrmem
    refine ⟨pos r, hmem_of_keep r hrlt hrtrue, ?_, ?_⟩
    · rw [← hcd]
      exact hrdist
    · rw [← hcd]
      exact hrprio

theorem nat_dist_cast_q (p q : ℕ) : (Nat.dist p q : ℚ) = |(p : ℚ) - (q : ℚ)| := by
  rcases le_total p q with h | h
  · rw [Nat.dist_eq_sub_of_le h, Nat.cast_sub h, abs_sub_comm,
      abs_of_nonneg (sub_nonneg.mpr (by exact_mod_cast h))]
  · rw [Nat.dist_eq_sub_of_le_right h, Nat.cast_sub h,
      abs_of_nonneg (sub_nonneg.mpr (by exact_mod_cast h))]

/-- The property claim C5 (as amended) states of the peak picker on an
envelope with uniformly spaced frame times `times[i] = t0 + i*dt`:
`find_peaks` reports only height-qualified local maxima; any two reported
peaks are at least `min_distance_samples = max(1, int(min_distance_sec/dt))`
frames — hence at least that many times `dt` seconds — apart (which can be
less than `min_distance_sec`, because the frame distance is truncated to an
integer); every qualified candidate that is not reported is strictly within
that frame distance of a reported peak of greater or equal strength; and
`pick_peaks` returns exactly the reported peaks' times and strengths. -/
def PickPeaksProp (envelope times : List ℚ) (θ mds dt : ℚ) : Prop :=
  let d := pick_distance times mds
  let kept := find_peaks envelope θ d
  (∀ p ∈ kept, p ∈ (localMaxima envelope).filter
      (fun p => decide (θ ≤ envelope.getD p 0)))
  ∧ (∀ p ∈ kept, ∀ q ∈ kept, p ≠ q →
      d ≤ Nat.dist p q ∧ (d : ℚ) * dt ≤ |times.getD p 0 - times.getD q 0|)
  ∧ (∀ c ∈ (localMaxima envelope).filter (fun p => decide (θ ≤ envelope.getD p 0)),
      c ∉ kept →
      ∃ r ∈ kept, Nat.dist c r < d ∧ envelope.getD c 0 ≤ envelope.getD r 0)
  ∧ (pick_peaks envelope times θ mds
      = if envelope.length < 3 then ([], [])
        else if kept = [] then ([], [])
        else (kept.map (fun p => times.getD p 0), kept.map (fun p => envelope.getD p 0)))

/-- Claim C5 amended: the minimum-distance guarantee of the peak picker, in
frames and in seconds, together with the higher-strength-wins suppression
property. -/
theorem pick_peaks_min_distance_spec (envelope times : List ℚ) (θ mds t0 dt : ℚ)
    (ht : ∀ i, i < times.length → times.getD i 0 = t0 + (i : ℚ) * dt)
    (hlen : envelope.length = times.length) (hdt : 0 < dt) :
    PickPeaksProp envelope times θ mds dt := by
  unfold PickPeaksProp
  obtain ⟨hsub, hdist, hsupp⟩ :=
    find_peaks_spec envelope θ (pick_distance times mds)
  refine ⟨hsub, ?_, hsupp, rfl⟩
  intro p hp q hq hne
  have hd := hdist p hp q hq hne
  refine ⟨hd, ?_⟩
  have hplt : p < times.length := by
    have := (List.mem_filter.mp (hsub p hp)).1
    have := localMaxima_lt envelope p this
    omega
  have hqlt : q < times.length := by
    have := (List.mem_filter.mp (hsub q hq)).1
    have := localMaxima_lt envelope q this
    omega
  rw [ht p hplt, ht q hqlt]
  have heq : t0 + (p : ℚ) * dt - (t0 + (q : ℚ) * dt) = ((p : ℚ) - (q : ℚ)) * dt := by
    ring
  rw [heq, abs_mul, abs_of_pos hdt, ← nat_dist_cast_q]
  apply mul_le_mul_of_nonneg_right _ (le_of_lt hdt)
  exact_mod_cast hd

/-- Witness for the amended C5 on a 3-frame envelope with dt = 1. -/
theorem pick_peaks_min_distance_spec_witness :
    PickPeaksProp [0, 1, 0] [0, 1, 2] (1/10) (3/100) 1 :=
  pick_peaks_min_distance_spec [0, 1, 0] [0, 1, 2] (1/10) (3/100) 0 1
    (by
      intro i hi
      simp only [List.length_cons, List.length_nil] at hi
      interval_cases i <;> norm_num)
    rfl (by norm_num)

/-- Counterexample to claim C5 as stated: on the envelope
`[0,1,0,0,1,0]` with frame spacing 1 s and `min_distance_sec = 3.5`, the
picker reports peaks at times 1 and 4, which are 3 s apart — closer than
`min_distance_sec` — because `int(3.5/1) = 3` truncates the distance to 3
frames. -/
theorem pick_peaks_distance_violation :
    pick_peaks [0, 1, 0, 0, 1, 0] [0, 1, 2, 3, 4, 5] (1/10) (7/2) = ([1, 4], [1, 1])
    ∧ |(4 : ℚ) - 1| < 7/2 := by
  have e1 : plateauEnd [0, 1, 0, 0, 1, 0] 1 5 2 = 2 := by
    rw [plateauEnd_eq]; norm_num
  have e2 : plateauEnd [0, 1, 0, 0, 1, 0] 1 5 5 = 5 := by
    rw [plateauEnd_eq]; norm_num
  have s6 : localMaximaFrom [0, 1, 0, 0, 1, 0] 5 6 = [] := by
    rw [localMaximaFrom_eq]; norm_num
  have s4 : localMaximaFrom [0, 1, 0, 0, 1, 0] 5 4 = [4] := by
    rw [localMaximaFrom_eq]; norm_num [e2, s6]
  have s3 : localMaximaFrom [0, 1, 0, 0, 1, 0] 5 3 = [4] := by
    rw [localMaximaFrom_eq]; norm_num [s4]
  have s1 : localMaximaFrom [0, 1, 0, 0, 1, 0] 5 1 = [1, 4] := by
    rw [localMaximaFrom_eq]; norm_num [e1, s3]
  have hlm : localMaxima [0, 1, 0, 0, 1, 0] = [1, 4] := by
    unfold localMaxima
    norm_num [s1]
  have hd : pick_distance [0, 1, 2, 3, 4, 5] (7/2) = 3 := by
    unfold pick_distance py_int
    norm_num
    rfl
  have hcands : ((localMaxima [0, 1, 0, 0, 1, 0]).filter
      (fun p => decide ((1:ℚ)/10 ≤ [0, 1, 0, 0, 1, 0].getD p 0))) = [1, 4] := by
    rw [hlm]
    norm_num
  have hord : peakOrder [1, 4] [0, 1, 0, 0, 1, 0] = [1, 0] := by
    unfold peakOrder
    norm_num [List.insertionSort, List.orderedInsert, List.range_succ]
  have hfp : find_peaks [0, 1, 0, 0, 1, 0] (1/10) 3 = [1, 4] := by
    unfold find_peaks
    rw [hcands, hord]
    decide
  constructor
  · unfold pick_peaks
    rw [hd, hfp]
    norm_num
    intro h
    exact absurd h (by decide)
  · norm_num

end Drum2Midi
